import Mathlib

/-!
Verification development for the CookSnap open-recipe matching subsystem
(`lib/open-recipes.ts`).  The TypeScript source is shallowly embedded:

* JS strings are Lean `String`s (lists of characters); the ASCII fragment
  relevant to the tokenizer is modelled exactly.
* JS `number` scores (produced only by exact small-integer divisions and
  sums) are modelled as `ℚ`.
* JS `Set` / `Map` (whose iteration order is insertion order) are modelled
  as insertion-ordered lists / association lists.
* `Array.prototype.sort` (stable since ES2019) is modelled by the stable
  `List.insertionSort` with the propositional order induced by the
  comparator.
* External calls (`JSON.parse` of CSV sub-fields, the `fuse.js` search,
  `Math.random`) are modelled as oracle function parameters; the
  `JSON.parse` oracle distinguishes a throwing parse, an array result and
  a valid non-array result (whose unchecked `as T[]` cast makes the
  caller's `.map`/`.join` throw a `TypeError`).
* `async` functions that can reject are modelled in `Except Unit`;
  the process-wide memoisation store is not modelled (each call is a
  fresh computation over the given file state), matching a single
  request's data flow.
-/

/-! ## Definitions: the shallow embedding of the subsystem -/

/-- A character kept by the regex replacement `[^a-z0-9]+ ↦ " "`:
lowercase ASCII letter or ASCII digit. -/
def isKept (c : Char) : Bool :=
  (97 ≤ c.toNat && c.toNat ≤ 122) || (48 ≤ c.toNat && c.toNat ≤ 57)

/-- ASCII lowercasing of one character, as performed by
`String.prototype.toLowerCase` on the ASCII range. -/
def lowerChar (c : Char) : Char :=
  if 65 ≤ c.toNat ∧ c.toNat ≤ 90 then Char.ofNat (c.toNat + 32) else c

/-- Lowercase a whole string character-wise. -/
def lowerStr (s : String) : String := ⟨s.data.map lowerChar⟩

/-- Replace every maximal run of non-kept characters by a single space
(the regex replace `/[^a-z0-9]+/g → " "`).  The boolean records whether we
are inside such a run. -/
def squashAux : Bool → List Char → List Char
  | _, [] => []
  | inRun, c :: cs =>
    if isKept c then c :: squashAux false cs
    else if inRun then squashAux true cs
    else ' ' :: squashAux true cs

/-- Regex replacement `/[^a-z0-9]+/g → " "` over a character list. -/
def squash (l : List Char) : List Char := squashAux false l

/-- JS `String.prototype.trim`: drop leading and trailing whitespace. -/
def trimWs (l : List Char) : List Char :=
  ((l.dropWhile Char.isWhitespace).reverse.dropWhile Char.isWhitespace).reverse

/-- Embedding of `normalizeToken` (open-recipes.ts):
`value.toLowerCase().replace(/[^a-z0-9]+/g, " ").trim()`. -/
def normalizeToken (value : String) : String :=
  ⟨trimWs (squash (value.data.map lowerChar))⟩

/-- Characters surviving normalisation are kept characters or the space. -/
def KeptOrSpace (c : Char) : Prop := isKept c = true ∨ c = ' '

/-- Adjacent characters of a squashed list are never both spaces. -/
def SpacedOK (l : List Char) : Prop :=
  l.Chain' (fun a b => isKept a = true ∨ isKept b = true)

/-- Deduplicate keeping the first occurrence of each element, the
iteration/`Array.from` order of a JS `Set` filled from a list. -/
def insertionDedupAux (seen : List String) : List String → List String
  | [] => []
  | x :: xs =>
    if x ∈ seen then insertionDedupAux seen xs
    else x :: insertionDedupAux (x :: seen) xs

/-- JS `Array.from(new Set(list))`. -/
def insertionDedup (l : List String) : List String := insertionDedupAux [] l

/-- A `RecipeIngredient` from `@/types` as produced by this subsystem. -/
structure RecipeIngredient where
  name : String
  qty : Nat
  unit : String
deriving DecidableEq

/-- The in-memory record (`EnrichedRecipe` in the source); the internal
fields `_searchText`, `_tokens`, `_nerTokens` are embedded without the
leading underscore. -/
structure EnrichedRecipe where
  id : String
  title : String
  time_min : Option Nat
  diet : Option String
  tags : List String
  ingredients : List RecipeIngredient
  source_url : Option String
  image_url : Option String
  instructions : String
  searchText : String
  tokens : List String
  nerTokens : List String
deriving DecidableEq

/-- Default record used for (by construction in-range) list indexing. -/
def dfltRecipe : EnrichedRecipe :=
  ⟨"", "", none, none, [], [], none, none, "", "", [], []⟩

/-- The public `Recipe` projection (a `stripInternalFields` result). -/
structure Recipe where
  id : String
  title : String
  time_min : Option Nat
  diet : Option String
  tags : List String
  ingredients : List RecipeIngredient
  source_url : Option String
  image_url : Option String
  instructions : String
  ner_tokens : List String
deriving DecidableEq

/-- Embedding of `stripInternalFields`: drop the internal search fields and
re-expose the NER tokens as `ner_tokens`. -/
def stripInternalFields (r : EnrichedRecipe) : Recipe :=
  ⟨r.id, r.title, r.time_min, r.diet, r.tags, r.ingredients, r.source_url,
    r.image_url, r.instructions, r.nerTokens⟩

/-- A pantry `Item` restricted to the fields this subsystem reads. -/
structure Item where
  name : String
  risk_level : String
deriving DecidableEq

/-- Embedding of `getRecipeTokens`: NER tokens when non-empty, else the
naive text tokens. -/
def getRecipeTokens (recipe : EnrichedRecipe) : List String :=
  if recipe.nerTokens ≠ [] then recipe.nerTokens else recipe.tokens

/-- Embedding of `buildPantryTokenSet`:
`new Set(items.map(i => normalizeToken(i.name)).filter(Boolean))`. -/
def buildPantryTokenSet (items : List Item) : List String :=
  insertionDedup ((items.map (fun item => normalizeToken item.name)).filter (· ≠ ""))

/-- JS `String.prototype.includes` on character lists: `leadMatch` is the
match-at-the-front test. -/
def leadMatch : List Char → List Char → Bool
  | [], _ => true
  | _ :: _, [] => false
  | c :: cs, d :: ds => c = d && leadMatch cs ds

/-- Substring containment test (`haystack.includes(needle)`). -/
def containsSub (hay sub : List Char) : Bool :=
  match hay with
  | [] => leadMatch sub []
  | _ :: rest => leadMatch sub hay || containsSub rest sub

/-- JS `String.prototype.startsWith` over the character lists. -/
def jsStartsWith (s pre : String) : Bool := leadMatch pre.data s.data

/-- Embedding of `normalizeLink`; the absent (`undefined`) raw value is the
empty string, which JS treats as falsy. -/
def normalizeLink (link : String) : Option String :=
  if link = "" then none
  else if jsStartsWith link "http" then some link
  else some ("https://" ++ link)

/-- Result of the external `JSON.parse` call inside `safeParseArray`:
it can throw (which `safeParseArray` catches, yielding `[]`), return an
array (modelled as its string elements), or return a valid non-array
value — which `safeParseArray` passes through under the unchecked
`as T[]` cast, so the caller's immediate `.map`/`.join` then throws an
uncaught `TypeError`. -/
inductive JsParsed where
  | arr (values : List String)
  | nonArray
  | thrown
deriving DecidableEq

/-- Embedding of `safeParseArray` combined with its caller's immediate
array use: the falsy-value guard and the `catch` both yield `[]`; a
non-array parse result is surfaced as `.error ()` — the `TypeError` the
first consuming `.map`/`.join` throws (the consumption follows the parse
with nothing observable in between, so the throw is attached to the parse
site, in the source's evaluation order). -/
def safeParse (parseArr : String → JsParsed) (value : String) :
    Except Unit (List String) :=
  if value = "" then .ok []
  else
    match parseArr value with
    | .arr values => .ok values
    | .nonArray => .error ()
    | .thrown => .ok []

/-- Embedding of `toRecipeIngredient`. -/
def toRecipeIngredient (entry : String) : RecipeIngredient := ⟨entry, 0, ""⟩

/-- Embedding of `toTags`: a `Set` receives the lowercased source (when
truthy) then the first four truthy NER tokens lowercased; the sentinel
`"use-it-now"` is added when the set is empty. -/
def toTags (source : String) (ner : List String) : List String :=
  let base := (if source = "" then [] else [lowerStr source]) ++
    ((ner.take 4).filter (· ≠ "")).map lowerStr
  let tags := insertionDedup base
  if tags = [] then ["use-it-now"] else tags

/-- Splitting on runs of whitespace, dropping empty segments.  (JS
`split(/\s+/)` can also emit one leading empty segment; in the source every
use feeds the segments to `normalizeToken`+`filter(Boolean)` or to
`filter(Boolean)` directly, which removes it, so the two agree there.) -/
def wsSplitAux (cur : List Char) : List Char → List (List Char)
  | [] => if cur = [] then [] else [cur.reverse]
  | c :: cs =>
    if c.isWhitespace then
      if cur = [] then wsSplitAux [] cs else cur.reverse :: wsSplitAux [] cs
    else wsSplitAux (c :: cur) cs

/-- Whitespace-run splitting of a string into token strings. -/
def wsSplit (s : String) : List String := (wsSplitAux [] s.data).map (⟨·⟩)

/-- JS `str.split(" ")`: split at every single space character. -/
def splitOnSpaceChar : List Char → List (List Char)
  | [] => [[]]
  | c :: cs =>
    if c = ' ' then [] :: splitOnSpaceChar cs
    else
      match splitOnSpaceChar cs with
      | [] => [[c]]
      | t :: ts => (c :: t) :: ts

/-- JS `str.split(" ")` producing strings. -/
def jsSplitSpace (s : String) : List String := (splitOnSpaceChar s.data).map (⟨·⟩)

/-- One inner step of the Levenshtein dynamic-programming row update:
given the previous row (starting at the diagonal cell), the characters of
`b` still to process and the freshly computed cell to the left, produce the
rest of the new row via
`min(matrix[i-1][j] + 1, matrix[i][j-1] + 1, matrix[i-1][j-1] + cost)`. -/
def levScan (c : Char) : List Char → List Nat → Nat → List Nat
  | [], _, _ => []
  | _ :: _, [], _ => []
  | bj :: bs, diag :: prevRest, left =>
    let cost := if c = bj then 0 else 1
    let v := min (prevRest.headD 0 + 1) (min (left + 1) (diag + cost))
    v :: levScan c bs prevRest v

/-- One row of the Levenshtein matrix: first cell `i = prev[0] + 1`,
remaining cells by `levScan`. -/
def levRowStep (b : List Char) (prev : List Nat) (c : Char) : List Nat :=
  (prev.headD 0 + 1) :: levScan c b prev (prev.headD 0 + 1)

/-- Embedding of `levenshtein` (named `levDistance` here since Mathlib reserves the name): row-by-row evaluation of the DP matrix of
the source, returning `matrix[a.length][b.length]`. -/
def levDistance (a b : List Char) : Nat :=
  (a.foldl (levRowStep b) (List.range (b.length + 1))).getLastD 0

/-- Embedding of `tokenSimilarity` over exact rationals. -/
def tokenSimilarity (a b : String) : ℚ :=
  if a = b then 1
  else
    let distance := levDistance a.data b.data
    let maxLength := if max a.length b.length = 0 then 1 else max a.length b.length
    1 - (distance : ℚ) / (maxLength : ℚ)

/-- Embedding of the inner loop of `scoreRecipeTokens`: running best
similarity of one query token against the record's tokens, breaking once
the best reaches `0.95`. -/
def bestSim (queryToken : String) : List String → ℚ → ℚ
  | [], best => best
  | token :: rest, best =>
    let similarity := tokenSimilarity queryToken token
    let best' := if best < similarity then similarity else best
    if (95 : ℚ) / 100 ≤ best' then best' else bestSim queryToken rest best'

/-- Embedding of `scoreRecipeTokens`: sum the per-query-token best
similarities exceeding `0.4`, plus `1` when the lowercased title contains
the first query token. -/
def scoreRecipeTokens (recipe : EnrichedRecipe) (queryTokens : List String) : ℚ :=
  let score := queryTokens.foldl
    (fun acc queryToken =>
      let best := bestSim queryToken recipe.tokens 0
      if (2 : ℚ) / 5 < best then acc + best else acc) 0
  if containsSub (lowerStr recipe.title).data (queryTokens.headD "").data then score + 1
  else score

/-- Embedding of `scoreRecipeForPantry`: fraction of the recipe's effective
tokens present in the pantry token set, with the `max(·, 1)` division
guard. -/
def scoreRecipeForPantry (recipe : EnrichedRecipe) (pantrySet : List String) : ℚ :=
  if pantrySet = [] then 0
  else
    let tokens := getRecipeTokens recipe
    let matchCount := (tokens.filter (fun token => token ∈ pantrySet)).length
    (matchCount : ℚ) / ((max tokens.length 1 : Nat) : ℚ)

/-- A token index: association list in key-insertion order, the iteration
order of a JS `Map`. -/
def TokenIndex : Type := List (String × List Nat)

/-- JS `Map.get`. -/
def mapGet (index : TokenIndex) (token : String) : Option (List Nat) :=
  match index with
  | [] => none
  | (k, bucket) :: rest => if k = token then some bucket else mapGet rest token

/-- One `bucket.push(recipeIndex)` / `index.set(token, [recipeIndex])`
step of `buildTokenIndex`. -/
def bucketAdd (index : TokenIndex) (token : String) (recipeIndex : Nat) : TokenIndex :=
  match index with
  | [] => [(token, [recipeIndex])]
  | (k, bucket) :: rest =>
    if k = token then (k, bucket ++ [recipeIndex]) :: rest
    else (k, bucket) :: bucketAdd rest token recipeIndex

/-- Indexing one record: its (deduplicated) tokens are walked in insertion
order, empty tokens skipped. -/
def indexRecipe (index : TokenIndex) (recipeIndex : Nat) (tokens : List String) : TokenIndex :=
  tokens.foldl (fun acc token => if token = "" then acc else bucketAdd acc token recipeIndex) index

/-- Walk of the dataset by `buildTokenIndex`. -/
def buildTokenIndexAux (index : TokenIndex) (recipeIndex : Nat) :
    List EnrichedRecipe → TokenIndex
  | [] => index
  | recipe :: rest =>
    buildTokenIndexAux (indexRecipe index recipeIndex (insertionDedup (getRecipeTokens recipe)))
      (recipeIndex + 1) rest

/-- Embedding of `buildTokenIndex`. -/
def buildTokenIndex (dataset : List EnrichedRecipe) : TokenIndex :=
  buildTokenIndexAux [] 0 dataset

/-- JS `Set<number>` add (no-op when present, else appended). -/
def addUnique (l : List Nat) (i : Nat) : List Nat := if i ∈ l then l else l ++ [i]

/-- Embedding of `collectCandidateIndexes`: union of the buckets of the
query tokens, as an insertion-ordered set of record positions. -/
def collectCandidateIndexes (tokens : List String) (tokenIndex : TokenIndex) : List Nat :=
  tokens.foldl
    (fun acc token =>
      match mapGet tokenIndex token with
      | none => acc
      | some ms => ms.foldl addUnique acc) []

/-- JS `Map<number, number>` structure for candidate scores. -/
def scoreAdd (scores : List (Nat × Nat)) (idx : Nat) : List (Nat × Nat) :=
  match scores with
  | [] => [(idx, 1)]
  | (k, v) :: rest =>
    if k = idx then (k, v + 1) :: rest else (k, v) :: scoreAdd rest idx

/-- Embedding of `scoreCandidatesByTokenHits`: for every record position
touched by a query token, the number of query tokens hitting it, as an
insertion-ordered `Map` given by its `entries()` list. -/
def scoreCandidatesByTokenHits (tokens : List String) (tokenIndex : TokenIndex) :
    List (Nat × Nat) :=
  tokens.foldl
    (fun acc token =>
      match mapGet tokenIndex token with
      | none => acc
      | some ms => ms.foldl scoreAdd acc) []

/-- Lookup of a score with default `0` (JS `scores.get(idx) ?? 0`). -/
def scoreGet (scores : List (Nat × Nat)) (idx : Nat) : Nat :=
  match scores with
  | [] => 0
  | (k, v) :: rest => if k = idx then v else scoreGet rest idx

/-- Order of `(b, a) => b.score - a.score || aTime - bTime` (descending
score, ties by ascending `time_min ?? 0`) for rational scores. -/
def pantryRel (a b : EnrichedRecipe × ℚ) : Prop :=
  b.2 < a.2 ∨ (a.2 = b.2 ∧ a.1.time_min.getD 0 ≤ b.1.time_min.getD 0)

instance : DecidableRel pantryRel := fun a b => by unfold pantryRel; infer_instance

instance : IsTotal (EnrichedRecipe × ℚ) pantryRel where
  total a b := by
    unfold pantryRel
    rcases lt_trichotomy a.2 b.2 with h | h | h
    · exact Or.inr (Or.inl h)
    · rcases le_total (a.1.time_min.getD 0) (b.1.time_min.getD 0) with ht | ht
      · exact Or.inl (Or.inr ⟨h, ht⟩)
      · exact Or.inr (Or.inr ⟨h.symm, ht⟩)
    · exact Or.inl (Or.inl h)

instance : IsTrans (EnrichedRecipe × ℚ) pantryRel where
  trans a b c hab hbc := by
    unfold pantryRel at *
    rcases hab with h | ⟨he, ht⟩
    · rcases hbc with h2 | ⟨he2, _⟩
      · exact Or.inl (h.trans' h2)
      · exact Or.inl (he2 ▸ h)
    · rcases hbc with h2 | ⟨he2, ht2⟩
      · exact Or.inl (he ▸ h2)
      · exact Or.inr ⟨he.trans he2, ht.trans ht2⟩

/-- The same comparator order for natural-number hit counts. -/
def hitRel (a b : EnrichedRecipe × Nat) : Prop :=
  b.2 < a.2 ∨ (a.2 = b.2 ∧ a.1.time_min.getD 0 ≤ b.1.time_min.getD 0)

instance : DecidableRel hitRel := fun a b => by unfold hitRel; infer_instance

instance : IsTotal (EnrichedRecipe × Nat) hitRel where
  total a b := by
    unfold hitRel
    rcases Nat.lt_trichotomy a.2 b.2 with h | h | h
    · exact Or.inr (Or.inl h)
    · rcases le_total (a.1.time_min.getD 0) (b.1.time_min.getD 0) with ht | ht
      · exact Or.inl (Or.inr ⟨h, ht⟩)
      · exact Or.inr (Or.inr ⟨h.symm, ht⟩)
    · exact Or.inl (Or.inl h)

instance : IsTrans (EnrichedRecipe × Nat) hitRel where
  trans a b c hab hbc := by
    unfold hitRel at *
    rcases hab with h | ⟨he, ht⟩
    · rcases hbc with h2 | ⟨he2, _⟩
      · exact Or.inl (h.trans' h2)
      · exact Or.inl (he2 ▸ h)
    · rcases hbc with h2 | ⟨he2, ht2⟩
      · exact Or.inl (he ▸ h2)
      · exact Or.inr ⟨he.trans he2, ht.trans ht2⟩

/-- Order of the fallback-search comparator `(a, b) => b.score - a.score`
(descending score only). -/
def simRel (a b : EnrichedRecipe × ℚ) : Prop := b.2 ≤ a.2

instance : DecidableRel simRel := fun a b => by unfold simRel; infer_instance

instance : IsTotal (EnrichedRecipe × ℚ) simRel where
  total a b := by unfold simRel; exact le_total b.2 a.2

instance : IsTrans (EnrichedRecipe × ℚ) simRel where
  trans a b c hab hbc := by unfold simRel at *; exact hbc.trans hab

/-- Embedding of the character loop of `parseCsvLine` (RFC4180-style:
doubled quote inside quotes is a literal quote, comma splits only outside
quotes); `cur` is accumulated in reverse.  The extra fuel argument (one
unit per loop iteration, which consumes one or two characters) only makes
the recursion structural; `parseCsvLine` supplies fuel equal to the line
length, which the invariant `fuel ≥ remaining length` shows is never
exhausted, so the fuel-out branch mirrors the end-of-line branch. -/
def parseCsvLineAux : Nat → Bool → List Char → List Char → List (List Char)
  | _, _, cur, [] => [cur.reverse]
  | 0, _, cur, _ => [cur.reverse]
  | fuel + 1, inQuotes, cur, c :: cs =>
    if c = '"' then
      if inQuotes then
        match cs with
        | '"' :: cs2 => parseCsvLineAux fuel true ('"' :: cur) cs2
        | _ => parseCsvLineAux fuel false cur cs
      else parseCsvLineAux fuel true cur cs
    else if c = ',' ∧ inQuotes = false then cur.reverse :: parseCsvLineAux fuel false [] cs
    else parseCsvLineAux fuel inQuotes (c :: cur) cs

/-- Embedding of `parseCsvLine`. -/
def parseCsvLine (line : String) : List String :=
  (parseCsvLineAux line.data.length false [] line.data).map (⟨·⟩)

/-- The lowercased `"title ingredientNames.join(' ') directions.join(' ')"`
search text. -/
def buildSearchText (title : String) (ingredientNames directions : List String) : String :=
  lowerStr (title ++ " " ++ String.intercalate " " ingredientNames ++ " " ++
    String.intercalate " " directions)

/-- The deduplicated, normalized token list derived from a search text. -/
def tokenizeText (searchText : String) : List String :=
  insertionDedup (((wsSplit searchText).map normalizeToken).filter (· ≠ ""))

/-- Building one record from a (≥ 7 column) CSV row whose JSON sub-fields
parsed to the arrays `ingredients`/`directions`/`ner`; `i` is the running
record index.  Columns: `[, title, ingredients, directions, link, source,
NER]`. -/
def csvRowToRecipe (i : Nat) (row : List String) (ingredients : List RecipeIngredient)
    (directions ner : List String) : EnrichedRecipe :=
  let title := row.getD 1 ""
  let searchText := buildSearchText title (ingredients.map (·.name)) directions
  let nerTokens := (ner.map normalizeToken).filter (· ≠ "")
  let effectiveIngredients :=
    if ingredients ≠ [] then ingredients else nerTokens.map (fun token => ⟨token, 0, ""⟩)
  { id := "open-" ++ toString i
    title := title
    time_min := none
    diet := none
    tags := toTags (row.getD 5 "") ner
    ingredients := effectiveIngredients
    source_url := normalizeLink (row.getD 4 "")
    image_url := none
    instructions := String.intercalate "\n" directions
    searchText := searchText
    tokens := tokenizeText searchText
    nerTokens := nerTokens }

/-- The line loop of `readDatasetFromCsv`: blank lines, rows with fewer
than 7 columns, rows without a title, and rows whose ingredient field
parses to an empty list are dropped; the record index advances only on a
kept row.  In the source's evaluation order, a surviving row first parses
its ingredient field (a non-array parse throws), skips the row when the
result is empty (directions/NER then never consumed), and otherwise
consumes the direction and NER fields (each throwing on a non-array
parse); any such `TypeError` rejects the whole read. -/
def readCsvLines (parseArr : String → JsParsed) (i : Nat) :
    List String → Except Unit (List EnrichedRecipe)
  | [] => .ok []
  | line :: rest =>
    if trimWs line.data = [] then readCsvLines parseArr i rest
    else
      let row := parseCsvLine line
      if row.length < 7 then readCsvLines parseArr i rest
      else if row.getD 1 "" = "" then readCsvLines parseArr i rest
      else
        match safeParse parseArr (row.getD 2 "") with
        | .error e => .error e
        | .ok ingredientValues =>
          if ingredientValues.map toRecipeIngredient = [] then readCsvLines parseArr i rest
          else
            match safeParse parseArr (row.getD 3 "") with
            | .error e => .error e
            | .ok directions =>
              match safeParse parseArr (row.getD 6 "") with
              | .error e => .error e
              | .ok ner =>
                match readCsvLines parseArr (i + 1) rest with
                | .error e => .error e
                | .ok restRecords =>
                  .ok (csvRowToRecipe i row (ingredientValues.map toRecipeIngredient)
                    directions ner :: restRecords)

/-- Embedding of `readDatasetFromCsv`: the file is `none` when absent,
otherwise its lines; the header line is always skipped. -/
def readDatasetFromCsv (parseArr : String → JsParsed) :
    Option (List String) → Except Unit (List EnrichedRecipe)
  | none => .ok []
  | some [] => .ok []
  | some (_ :: rest) => readCsvLines parseArr 0 rest

/-- One entry of the parsed JSON cache payload; `directions`/`ingredients`
absent in the file are the `?? []` default, hence plain lists here. -/
structure JsonEntry where
  title : String
  ingredients : List RecipeIngredient
  directions : List String
  ner_tokens : Option (List String)
  link : Option String
  source : Option String
deriving DecidableEq

/-- Result of `JSON.parse` on the cache file: a throwing parse, a valid
non-array value (on which the source's `payload.map` then throws an
uncaught `TypeError`), or an entry array.  Array elements are modelled
with the documented well-typed shape of the cache writer; payloads whose
elements have fields of a different JSON type are outside the modelled
states. -/
inductive JsonParse where
  | malformed
  | nonArray
  | entries (payload : List JsonEntry)
deriving DecidableEq

/-- Building one record from a JSON cache entry (note: unlike the CSV
path, `toTags` receives the *normalized* NER tokens, and the raw link is
stored without `normalizeLink`). -/
def jsonEntryToRecipe (index : Nat) (entry : JsonEntry) : EnrichedRecipe :=
  let directions := entry.directions
  let ingredients := entry.ingredients
  let nerTokens := ((entry.ner_tokens.getD []).map normalizeToken).filter (· ≠ "")
  let searchText := buildSearchText entry.title (ingredients.map (·.name)) directions
  let effectiveIngredients :=
    if ingredients ≠ [] then ingredients else nerTokens.map (fun token => ⟨token, 0, ""⟩)
  { id := "open-" ++ toString index
    title := entry.title
    time_min := none
    diet := none
    tags := toTags (entry.source.getD "") nerTokens
    ingredients := effectiveIngredients
    source_url := entry.link
    image_url := none
    instructions := String.intercalate "\n" directions
    searchText := searchText
    tokens := tokenizeText searchText
    nerTokens := nerTokens }

/-- The indexed `payload.map((entry, index) => ...)` walk. -/
def jsonRecipes (index : Nat) : List JsonEntry → List EnrichedRecipe
  | [] => []
  | entry :: rest => jsonEntryToRecipe index entry :: jsonRecipes (index + 1) rest

/-- Embedding of `readDatasetFromJson`: `none` result when the file is
absent; an unguarded `JSON.parse` failure rejects the promise, as does
the `payload.map` `TypeError` when the file parses to a non-array. -/
def readDatasetFromJson : Option JsonParse → Except Unit (Option (List EnrichedRecipe))
  | none => .ok none
  | some .malformed => .error ()
  | some .nonArray => .error ()
  | some (.entries payload) => .ok (some (jsonRecipes 0 payload))

/-- Embedding of `loadDataset`: prefer a non-empty JSON cache, else the
CSV; a rejection of either read propagates. -/
def loadDataset (parseArr : String → JsParsed) (csv : Option (List String))
    (json : Option JsonParse) : Except Unit (List EnrichedRecipe) :=
  match readDatasetFromJson json with
  | .error e => .error e
  | .ok (some fromJson) =>
    if fromJson ≠ [] then .ok fromJson else readDatasetFromCsv parseArr csv
  | .ok none => readDatasetFromCsv parseArr csv

/-- JS array destructuring swap on positions `i`, `j`. -/
def swapIdx {α : Type} (dflt : α) (l : List α) (i j : Nat) : List α :=
  (l.set i (l.getD j dflt)).set j (l.getD i dflt)

/-- Fisher–Yates loop of `shuffle`; `rng i` stands for the value
`Math.floor(Math.random() * (i + 1))`, clamped into range by `% (i + 1)`. -/
def shuffleGo {α : Type} (dflt : α) (rng : Nat → Nat) : List α → Nat → List α
  | l, 0 => l
  | l, i + 1 => shuffleGo dflt rng (swapIdx dflt l (i + 1) (rng (i + 1) % (i + 2))) i

/-- Embedding of `shuffle`. -/
def shuffle {α : Type} (dflt : α) (rng : Nat → Nat) (l : List α) : List α :=
  shuffleGo dflt rng l (l.length - 1)

/-- Embedding of `getRandomOpenRecipes` after the dataset is loaded. -/
def getRandomOpenRecipesCore (rng : Nat → Nat) (dataset : List EnrichedRecipe)
    (count : Nat) : List Recipe :=
  if dataset = [] then []
  else ((shuffle dfltRecipe rng dataset).take count).map stripInternalFields

/-- Embedding of `getBestPantryMatches` after the dataset is loaded, up to
(but excluding) the final public projection: the scored, filtered, sorted,
truncated entry list. -/
def getBestPantryMatchesScored (items : List Item) (limit : Nat)
    (dataset : List EnrichedRecipe) : List (EnrichedRecipe × ℚ) :=
  if items = [] then []
  else
    let pantryTokens := buildPantryTokenSet items
    if pantryTokens = [] then []
    else if dataset = [] then []
    else
      let tokenIndex := buildTokenIndex dataset
      let candidateIndexes := collectCandidateIndexes pantryTokens tokenIndex
      if candidateIndexes = [] then []
      else
        (List.insertionSort pantryRel
          ((candidateIndexes.map (fun idx => (dataset.getD idx dfltRecipe,
            scoreRecipeForPantry (dataset.getD idx dfltRecipe) pantryTokens))).filter
            (fun entry => 0 < entry.2))).take limit

/-- Embedding of `getBestPantryMatches` (public result). -/
def getBestPantryMatches (items : List Item) (limit : Nat)
    (dataset : List EnrichedRecipe) : List Recipe :=
  (getBestPantryMatchesScored items limit dataset).map (fun entry => stripInternalFields entry.1)

/-- The normalized token set of the `"use-now"`/`"risky"` pantry items. -/
def riskyTokensOf (items : List Item) : List String :=
  insertionDedup (((items.filter
    (fun item => item.risk_level = "use-now" || item.risk_level = "risky")).map
      (fun item => normalizeToken item.name)).filter (· ≠ ""))

/-- Embedding of `getUseNowRecipes` after the dataset is loaded, up to the
final public projection. -/
def getUseNowRecipesScored (items : List Item) (limit : Nat)
    (dataset : List EnrichedRecipe) : List (EnrichedRecipe × Nat) :=
  let riskyItems := items.filter
    (fun item => item.risk_level = "use-now" || item.risk_level = "risky")
  if riskyItems = [] then []
  else
    let riskyTokens :=
      insertionDedup ((riskyItems.map (fun item => normalizeToken item.name)).filter (· ≠ ""))
    if riskyTokens = [] then []
    else if dataset = [] then []
    else
      let tokenIndex := buildTokenIndex dataset
      let candidateScores := scoreCandidatesByTokenHits riskyTokens tokenIndex
      if candidateScores = [] then []
      else
        (List.insertionSort hitRel
          (candidateScores.map (fun p => (dataset.getD p.1 dfltRecipe, p.2)))).take limit

/-- Embedding of `getUseNowRecipes` (public result). -/
def getUseNowRecipes (items : List Item) (limit : Nat)
    (dataset : List EnrichedRecipe) : List Recipe :=
  (getUseNowRecipesScored items limit dataset).map (fun entry => stripInternalFields entry.1)

/-- The manual fallback scoring pass of `searchOpenRecipes`: score every
record, keep strictly positive scores, sort descending by score. -/
def searchFallbackScored (dataset : List EnrichedRecipe) (tokens : List String) :
    List (EnrichedRecipe × ℚ) :=
  List.insertionSort simRel
    ((dataset.map (fun recipe => (recipe, scoreRecipeTokens recipe tokens))).filter
      (fun entry => 0 < entry.2))

/-- Embedding of `searchOpenRecipes` after the dataset is loaded.
`fuseSearch` is the oracle for the external `fuse.js` search (whose
results are already limited); when the dataset is non-empty `loadFuse`
always produces a `Fuse` instance, so the `!fuse` early return is the
`dataset = []` case. -/
def searchOpenRecipes (fuseSearch : String → Nat → List EnrichedRecipe)
    (dataset : List EnrichedRecipe) (query : String) (limit : Nat) : List Recipe :=
  let normalized := normalizeToken query
  if normalized = "" then []
  else if dataset = [] then []
  else
    let results := (fuseSearch normalized limit).map stripInternalFields
    if results ≠ [] then results
    else
      let tokens := (jsSplitSpace normalized).filter (· ≠ "")
      if tokens = [] then []
      else
        ((searchFallbackScored dataset tokens).take limit).map
          (fun entry => stripInternalFields entry.1)

/-- Entry point `getRandomOpenRecipes` over the file state. -/
def getRandomOpenRecipesE (rng : Nat → Nat) (parseArr : String → JsParsed)
    (csv : Option (List String)) (json : Option JsonParse) (count : Nat) :
    Except Unit (List Recipe) :=
  (loadDataset parseArr csv json).map
    (fun dataset => getRandomOpenRecipesCore rng dataset count)

/-- Entry point `getBestPantryMatches` over the file state (the item and
token guards run before the dataset is awaited). -/
def getBestPantryMatchesE (parseArr : String → JsParsed) (csv : Option (List String))
    (json : Option JsonParse) (items : List Item) (limit : Nat) :
    Except Unit (List Recipe) :=
  if items = [] then .ok []
  else if buildPantryTokenSet items = [] then .ok []
  else (loadDataset parseArr csv json).map
    (fun dataset => getBestPantryMatches items limit dataset)

/-- Entry point `getUseNowRecipes` over the file state. -/
def getUseNowRecipesE (parseArr : String → JsParsed) (csv : Option (List String))
    (json : Option JsonParse) (items : List Item) (limit : Nat) :
    Except Unit (List Recipe) :=
  if items.filter (fun item => item.risk_level = "use-now" || item.risk_level = "risky") = [] then
    .ok []
  else if riskyTokensOf items = [] then .ok []
  else (loadDataset parseArr csv json).map
    (fun dataset => getUseNowRecipes items limit dataset)

/-- Entry point `searchOpenRecipes` over the file state. -/
def searchOpenRecipesE (fuseSearch : String → Nat → List EnrichedRecipe)
    (parseArr : String → JsParsed) (csv : Option (List String))
    (json : Option JsonParse) (query : String) (limit : Nat) :
    Except Unit (List Recipe) :=
  if normalizeToken query = "" then .ok []
  else (loadDataset parseArr csv json).map
    (fun dataset => searchOpenRecipes fuseSearch dataset query limit)

/-- Record positions (counting from `i`) whose deduplicated effective
token list contains `token`. -/
def tokenHits (token : String) : Nat → List EnrichedRecipe → List Nat
  | _, [] => []
  | i, recipe :: rest =>
    if token ∈ insertionDedup (getRecipeTokens recipe) then
      i :: tokenHits token (i + 1) rest
    else tokenHits token (i + 1) rest

/-- A one-record dataset on which the fallback scorer yields score `0`. -/
def zzRecipe : EnrichedRecipe := { dfltRecipe with title := "Zzzz", tokens := ["zzzz"] }

/-- Modelled from the spec (§4.4 wording): the fallback pass computes a
score for *each* dataset record, sorts descending by score and takes the
top `limit` — with no positive-score filter. -/
def specFallbackTop (dataset : List EnrichedRecipe) (tokens : List String) (limit : Nat) :
    List Recipe :=
  ((List.insertionSort simRel
    (dataset.map (fun recipe => (recipe, scoreRecipeTokens recipe tokens)))).take limit).map
    (fun entry => stripInternalFields entry.1)

/-! ## Theorems -/

theorem lowerChar_of_keptOrSpace {c : Char} (h : KeptOrSpace c) :
    lowerChar c = c := by
  rcases h with h | h
  · unfold lowerChar
    rw [if_neg]
    simp only [isKept, Bool.or_eq_true, Bool.and_eq_true, decide_eq_true_eq] at h
    omega
  · subst h; decide

theorem isKept_not_ws {c : Char} (h : isKept c = true) :
    c.isWhitespace = false := by
  have hk : (97 ≤ c.toNat ∧ c.toNat ≤ 122) ∨ (48 ≤ c.toNat ∧ c.toNat ≤ 57) := by
    simpa [isKept, Bool.or_eq_true, Bool.and_eq_true, decide_eq_true_eq] using h
  have h1 : c ≠ ' ' := fun hc => absurd (hc ▸ hk) (by decide)
  have h2 : c ≠ '\t' := fun hc => absurd (hc ▸ hk) (by decide)
  have h3 : c ≠ '\r' := fun hc => absurd (hc ▸ hk) (by decide)
  have h4 : c ≠ '\n' := fun hc => absurd (hc ▸ hk) (by decide)
  simp [Char.isWhitespace, h1, h2, h3, h4]

theorem space_is_ws : (' ' : Char).isWhitespace = true := by decide

theorem mem_squashAux {c : Char} :
    ∀ (b : Bool) (l : List Char), c ∈ squashAux b l → KeptOrSpace c := by
  intro b l
  induction l generalizing b with
  | nil => intro h; simp [squashAux] at h
  | cons d ds ih =>
    intro h
    unfold squashAux at h
    by_cases hk : isKept d
    · rw [if_pos hk] at h
      rcases List.mem_cons.mp h with h | h
      · exact h ▸ Or.inl hk
      · exact ih false h
    · rw [if_neg hk] at h
      by_cases hr : b
      · subst hr; rw [if_pos rfl] at h; exact ih true h
      · simp only [hr, Bool.false_eq_true, if_false] at h
        rcases List.mem_cons.mp h with h | h
        · exact Or.inr h
        · exact ih true h

theorem head_squashAux_true {c : Char} :
    ∀ l : List Char, (squashAux true l).head? = some c → isKept c = true := by
  intro l
  induction l with
  | nil => intro h; simp [squashAux] at h
  | cons d ds ih =>
    intro h
    unfold squashAux at h
    by_cases hk : isKept d
    · rw [if_pos hk] at h
      simp only [List.head?_cons, Option.some.injEq] at h
      exact h ▸ hk
    · rw [if_neg hk, if_pos rfl] at h
      exact ih h

theorem spacedOK_squashAux : ∀ (b : Bool) (l : List Char), SpacedOK (squashAux b l) := by
  intro b l
  induction l generalizing b with
  | nil => simp [squashAux, SpacedOK]
  | cons d ds ih =>
    unfold squashAux
    by_cases hk : isKept d
    · rw [if_pos hk]
      refine List.chain'_cons'.mpr ⟨fun y _ => Or.inl hk, ih false⟩
    · rw [if_neg hk]
      by_cases hr : b
      · subst hr; rw [if_pos rfl]; exact ih true
      · simp only [hr, Bool.false_eq_true, if_false]
        refine List.chain'_cons'.mpr ⟨fun y hy => Or.inr ?_, ih true⟩
        exact head_squashAux_true ds hy

/-- On a list whose characters are kept-or-space with no two adjacent
spaces, the squash pass is the identity (and in in-run mode as well when
the head is kept). -/
theorem squashAux_eq_self :
    ∀ l : List Char, (∀ c ∈ l, KeptOrSpace c) → SpacedOK l →
      squashAux false l = l ∧
      ((∀ c, l.head? = some c → isKept c = true) → squashAux true l = l) := by
  intro l
  induction l with
  | nil => intro _ _; exact ⟨rfl, fun _ => rfl⟩
  | cons d ds ih =>
    intro hmem hsp
    have hd := hmem d (List.mem_cons_self d ds)
    have hsp' : SpacedOK ds := hsp.tail
    have hmem' : ∀ c ∈ ds, KeptOrSpace c := fun c hc => hmem c (List.mem_cons_of_mem d hc)
    have ihds := ih hmem' hsp'
    constructor
    · unfold squashAux
      rcases hd with hk | hsp''
      · rw [if_pos hk, ihds.1]
      · subst hsp''
        have hns : isKept ' ' = false := by decide
        rw [if_neg (by simp [hns]), if_neg (by simp)]
        congr 1
        apply ihds.2
        intro c hc
        have := (List.chain'_cons'.mp hsp).1 c hc
        rcases this with h | h
        · exact absurd h (by simp [hns])
        · exact h
    · intro hhead
      have hk : isKept d = true := hhead d rfl
      unfold squashAux
      rw [if_pos hk, ihds.1]

theorem mem_dropWhile {α : Type} {p : α → Bool} {l : List α} {c : α}
    (h : c ∈ l.dropWhile p) : c ∈ l :=
  (List.dropWhile_suffix p).subset h

theorem head?_dropWhile {α : Type} {p : α → Bool} {l : List α} {c : α}
    (h : (l.dropWhile p).head? = some c) : p c = false := by
  have := List.head?_dropWhile_not p l
  rw [h] at this
  exact this

theorem dropWhile_eq_self {α : Type} {p : α → Bool} {l : List α}
    (h : ∀ c, l.head? = some c → p c = false) : l.dropWhile p = l := by
  cases l with
  | nil => rfl
  | cons a as =>
    have := h a rfl
    simp [List.dropWhile, this]

theorem getLast?_dropWhile {α : Type} {p : α → Bool} {l : List α}
    (h : l.dropWhile p ≠ []) : (l.dropWhile p).getLast? = l.getLast? := by
  obtain ⟨t, ht⟩ := List.dropWhile_suffix (l := l) p
  conv_rhs => rw [← ht]
  rw [List.getLast?_append]
  cases hc : (l.dropWhile p).getLast? with
  | none => exact absurd (List.getLast?_eq_none_iff.mp hc) h
  | some a => rfl

theorem mem_trimWs {l : List Char} {c : Char} (h : c ∈ trimWs l) : c ∈ l := by
  unfold trimWs at h
  rw [List.mem_reverse] at h
  have := mem_dropWhile h
  rw [List.mem_reverse] at this
  exact mem_dropWhile this

theorem head?_trimWs {l : List Char} {c : Char}
    (h : (trimWs l).head? = some c) : c.isWhitespace = false := by
  unfold trimWs at h
  rw [List.head?_reverse] at h
  by_cases hnil : (l.dropWhile Char.isWhitespace).reverse.dropWhile Char.isWhitespace = []
  · rw [hnil] at h; simp at h
  · rw [getLast?_dropWhile hnil, List.getLast?_reverse] at h
    exact head?_dropWhile h

theorem getLast?_trimWs {l : List Char} {c : Char}
    (h : (trimWs l).getLast? = some c) : c.isWhitespace = false := by
  unfold trimWs at h
  rw [List.getLast?_reverse] at h
  exact head?_dropWhile h

theorem trimWs_eq_self {l : List Char}
    (hh : ∀ c, l.head? = some c → c.isWhitespace = false)
    (hl : ∀ c, l.getLast? = some c → c.isWhitespace = false) :
    trimWs l = l := by
  unfold trimWs
  rw [dropWhile_eq_self hh]
  rw [dropWhile_eq_self (by intro c hc; rw [List.head?_reverse] at hc; exact hl c hc)]
  exact List.reverse_reverse l

theorem trimWs_trimWs (l : List Char) : trimWs (trimWs l) = trimWs l :=
  trimWs_eq_self (fun _ h => head?_trimWs h) (fun _ h => getLast?_trimWs h)

theorem spacedOK_dropWhile {p : Char → Bool} {l : List Char}
    (h : SpacedOK l) : SpacedOK (l.dropWhile p) :=
  h.suffix (List.dropWhile_suffix p)

theorem spacedOK_reverse {l : List Char} (h : SpacedOK l) : SpacedOK l.reverse := by
  unfold SpacedOK at *
  rw [List.chain'_reverse]
  exact List.Chain'.imp (fun a b hab => Or.symm hab) h

theorem spacedOK_trimWs {l : List Char} (h : SpacedOK l) : SpacedOK (trimWs l) := by
  unfold trimWs
  exact spacedOK_reverse (spacedOK_dropWhile (spacedOK_reverse (spacedOK_dropWhile h)))

theorem map_lowerChar_id {l : List Char} (h : ∀ c ∈ l, KeptOrSpace c) :
    l.map lowerChar = l := by
  induction l with
  | nil => rfl
  | cons c cs ih =>
    simp only [List.map_cons]
    rw [lowerChar_of_keptOrSpace (h c (List.mem_cons_self c cs)),
      ih (fun d hd => h d (List.mem_cons_of_mem c hd))]

/-- Claim C8: the tokenizer/normalizer is idempotent —
`normalize(normalize(s)) = normalize(s)` for every string `s` — and it is a
pure total function mapping the empty string to the empty string.  (The
embedding `normalizeToken` is the source's
`value.toLowerCase().replace(/[^a-z0-9]+/g, " ").trim()`.) -/
theorem c8_theorem (s : String) :
    normalizeToken (normalizeToken s) = normalizeToken s ∧ normalizeToken "" = "" := by
  constructor
  · show normalizeToken ⟨trimWs (squash (s.data.map lowerChar))⟩ = _
    unfold normalizeToken
    congr 1
    show trimWs (squash ((trimWs (squash (s.data.map lowerChar))).map lowerChar)) = _
    have hm : ∀ c ∈ trimWs (squash (s.data.map lowerChar)), KeptOrSpace c :=
      fun c hc => mem_squashAux false _ (mem_trimWs hc)
    rw [map_lowerChar_id hm]
    have hsp : SpacedOK (trimWs (squash (s.data.map lowerChar))) :=
      spacedOK_trimWs (spacedOK_squashAux false _)
    rw [show squash (trimWs (squash (s.data.map lowerChar))) =
          trimWs (squash (s.data.map lowerChar)) from
        (squashAux_eq_self _ hm hsp).1]
    exact trimWs_trimWs _
  · rfl

theorem mem_insertionDedupAux {x : String} :
    ∀ (seen l : List String), x ∈ insertionDedupAux seen l ↔ x ∈ l ∧ x ∉ seen := by
  intro seen l
  induction l generalizing seen with
  | nil => simp [insertionDedupAux]
  | cons y ys ih =>
    unfold insertionDedupAux
    by_cases hy : y ∈ seen
    · rw [if_pos hy, ih]
      constructor
      · rintro ⟨h1, h2⟩; exact ⟨List.mem_cons_of_mem y h1, h2⟩
      · rintro ⟨h1, h2⟩
        rcases List.mem_cons.mp h1 with h | h
        · exact absurd (h ▸ hy) h2
        · exact ⟨h, h2⟩
    · rw [if_neg hy]
      constructor
      · intro h
        rcases List.mem_cons.mp h with h | h
        · exact ⟨h ▸ List.mem_cons_self y ys, h ▸ hy⟩
        · have := (ih (y :: seen)).mp h
          exact ⟨List.mem_cons_of_mem y this.1,
            fun hx => this.2 (List.mem_cons_of_mem y hx)⟩
      · rintro ⟨h1, h2⟩
        rcases List.mem_cons.mp h1 with h | h
        · exact h ▸ List.mem_cons_self y _
        · by_cases hxy : x = y
          · exact hxy ▸ List.mem_cons_self y _
          · exact List.mem_cons_of_mem y ((ih (y :: seen)).mpr
              ⟨h, fun hx => by
                rcases List.mem_cons.mp hx with h' | h'
                · exact hxy h'
                · exact h2 h'⟩)

theorem mem_insertionDedup {x : String} {l : List String} :
    x ∈ insertionDedup l ↔ x ∈ l := by
  rw [insertionDedup, mem_insertionDedupAux]
  simp

theorem nodup_insertionDedupAux :
    ∀ (seen l : List String), (insertionDedupAux seen l).Nodup := by
  intro seen l
  induction l generalizing seen with
  | nil => exact List.nodup_nil
  | cons y ys ih =>
    unfold insertionDedupAux
    by_cases hy : y ∈ seen
    · rw [if_pos hy]; exact ih seen
    · rw [if_neg hy]
      refine List.nodup_cons.mpr ⟨fun hmem => ?_, ih (y :: seen)⟩
      exact ((mem_insertionDedupAux (y :: seen) ys).mp hmem).2 (List.mem_cons_self y _)

theorem nodup_insertionDedup (l : List String) : (insertionDedup l).Nodup :=
  nodup_insertionDedupAux [] l

theorem toTags_ne_nil (source : String) (ner : List String) :
    toTags source ner ≠ [] := by
  unfold toTags
  by_cases h : insertionDedup ((if source = "" then [] else [lowerStr source]) ++
      ((ner.take 4).filter (· ≠ "")).map lowerStr) = []
  · simp only [h, if_pos]; simp
  · simp only [h, if_neg, if_false]; exact h

theorem scoreRecipeForPantry_nonneg (recipe : EnrichedRecipe) (pantrySet : List String) :
    0 ≤ scoreRecipeForPantry recipe pantrySet := by
  unfold scoreRecipeForPantry
  split
  · exact le_refl 0
  · exact div_nonneg (Nat.cast_nonneg _) (Nat.cast_nonneg _)

theorem scoreRecipeForPantry_le_one (recipe : EnrichedRecipe) (pantrySet : List String) :
    scoreRecipeForPantry recipe pantrySet ≤ 1 := by
  unfold scoreRecipeForPantry
  split
  · exact zero_le_one
  · rw [div_le_one (by exact_mod_cast Nat.lt_of_lt_of_le Nat.zero_lt_one (Nat.le_max_right _ 1))]
    exact_mod_cast Nat.le_trans (List.length_filter_le _ _) (Nat.le_max_left _ 1)

/-- Claim C10: `scoreRecipeForPantry` always returns a well-defined value
in `[0, 1]` (the division is guarded by `max(tokens.length, 1)`), and an
empty effective token set or an empty pantry set yields score `0`. -/
theorem c10_theorem (recipe : EnrichedRecipe) (pantrySet : List String) :
    0 ≤ scoreRecipeForPantry recipe pantrySet ∧
    scoreRecipeForPantry recipe pantrySet ≤ 1 ∧
    (getRecipeTokens recipe = [] ∨ pantrySet = [] →
      scoreRecipeForPantry recipe pantrySet = 0) := by
  refine ⟨scoreRecipeForPantry_nonneg recipe pantrySet,
    scoreRecipeForPantry_le_one recipe pantrySet, ?_⟩
  intro h
  rcases h with h | h
  · unfold scoreRecipeForPantry
    split
    · rfl
    · rw [h]
      simp
  · simp [scoreRecipeForPantry, h]

theorem c10_witness : scoreRecipeForPantry dfltRecipe [] = 0 :=
  (c10_theorem dfltRecipe []).2.2 (Or.inr rfl)

theorem bestScored_cases (items : List Item) (limit : Nat) (dataset : List EnrichedRecipe) :
    getBestPantryMatchesScored items limit dataset = [] ∨
    getBestPantryMatchesScored items limit dataset =
      (List.insertionSort pantryRel
        (((collectCandidateIndexes (buildPantryTokenSet items) (buildTokenIndex dataset)).map
          (fun idx => (dataset.getD idx dfltRecipe,
            scoreRecipeForPantry (dataset.getD idx dfltRecipe) (buildPantryTokenSet items)))).filter
          (fun entry => decide (0 < entry.2)))).take limit := by
  unfold getBestPantryMatchesScored
  dsimp only
  split_ifs <;> first | exact Or.inl rfl | exact Or.inr rfl

/-- Claim C3: every entry of the pantry-match result has score in `(0, 1]`,
the result is sorted descending by score with ties by ascending
`time_min ?? 0`, it has at most `limit` entries, the public result is its
projection, and an empty pantry token set yields the empty result. -/
theorem c3_theorem (items : List Item) (limit : Nat) (dataset : List EnrichedRecipe) :
    (∀ entry ∈ getBestPantryMatchesScored items limit dataset,
        0 < entry.2 ∧ entry.2 ≤ 1) ∧
    (getBestPantryMatchesScored items limit dataset).Pairwise pantryRel ∧
    (getBestPantryMatchesScored items limit dataset).length ≤ limit ∧
    getBestPantryMatches items limit dataset =
      (getBestPantryMatchesScored items limit dataset).map
        (fun entry => stripInternalFields entry.1) ∧
    (buildPantryTokenSet items = [] → getBestPantryMatches items limit dataset = []) := by
  refine ⟨?_, ?_, ?_, rfl, ?_⟩
  · intro entry hmem
    rcases bestScored_cases items limit dataset with hc | hc
    · rw [hc] at hmem; exact absurd hmem (List.not_mem_nil entry)
    · rw [hc] at hmem
      have hmem2 := (List.take_sublist _ _).subset hmem
      have hmem3 := (List.perm_insertionSort pantryRel _).mem_iff.mp hmem2
      have hfil := List.mem_filter.mp hmem3
      refine ⟨of_decide_eq_true hfil.2, ?_⟩
      obtain ⟨idx, _, heq⟩ := List.mem_map.mp hfil.1
      rw [← heq]
      exact scoreRecipeForPantry_le_one _ _
  · rcases bestScored_cases items limit dataset with hc | hc
    · rw [hc]; exact List.Pairwise.nil
    · rw [hc]
      exact (List.sorted_insertionSort pantryRel _).sublist (List.take_sublist _ _)
  · rcases bestScored_cases items limit dataset with hc | hc
    · rw [hc]; exact Nat.zero_le limit
    · rw [hc]; exact List.length_take_le _ _
  · intro hset
    unfold getBestPantryMatches getBestPantryMatchesScored
    by_cases hi : items = []
    · simp [hi]
    · simp [hi, hset]

theorem c3_witness : getBestPantryMatches [⟨"???", "safe"⟩] 3 [] = [] :=
  ( c3_theorem [⟨"???", "safe"⟩] 3 []).2.2.2.2 (by decide)

theorem mapGet_bucketAdd_self (index : TokenIndex) (token : String) (i : Nat) :
    mapGet (bucketAdd index token i) token = some ((mapGet index token).getD [] ++ [i]) := by
  induction index with
  | nil => simp [bucketAdd, mapGet]
  | cons kv rest ih =>
    obtain ⟨k, bucket⟩ := kv
    by_cases hk : k = token
    · subst hk
      simp [bucketAdd, mapGet]
    · simp only [bucketAdd, mapGet, if_neg hk]
      exact ih

theorem mapGet_bucketAdd_ne (index : TokenIndex) {token other : String} (i : Nat)
    (h : other ≠ token) :
    mapGet (bucketAdd index token i) other = mapGet index other := by
  have hto : ¬ (token = other) := fun hc => h hc.symm
  induction index with
  | nil =>
    show mapGet [(token, [i])] other = none
    simp only [mapGet]
    rw [if_neg hto]
  | cons kv rest ih =>
    obtain ⟨k, bucket⟩ := kv
    by_cases hk : k = token
    · subst hk
      have hred : bucketAdd ((k, bucket) :: rest) k i = (k, bucket ++ [i]) :: rest := by
        simp [bucketAdd]
      rw [hred]
      simp only [mapGet]
      rw [if_neg hto, if_neg hto]
    · have hred : bucketAdd ((k, bucket) :: rest) token i =
          (k, bucket) :: bucketAdd rest token i := by
        simp [bucketAdd, hk]
      rw [hred]
      simp only [mapGet]
      by_cases ho : k = other
      · rw [if_pos ho, if_pos ho]
      · rw [if_neg ho, if_neg ho]
        exact ih

theorem mapGet_indexRecipe (index : TokenIndex) (i : Nat) (tokens : List String)
    {token : String} (htok : token ≠ "") :
    mapGet (indexRecipe index i tokens) token =
      if token ∈ tokens then
        some ((mapGet index token).getD [] ++ List.replicate (tokens.count token) i)
      else mapGet index token := by
  induction tokens generalizing index with
  | nil => simp [indexRecipe]
  | cons t ts ih =>
    have step : indexRecipe index i (t :: ts) =
        indexRecipe (if t = "" then index else bucketAdd index t i) i ts := by
      simp [indexRecipe, List.foldl_cons]
    rw [step]
    by_cases ht : t = token
    · subst ht
      rw [if_neg htok, ih]
      rw [mapGet_bucketAdd_self]
      by_cases hmem : t ∈ ts
      · rw [if_pos hmem, if_pos (List.mem_cons_self t ts)]
        rw [List.count_cons_self]
        simp only [Option.getD_some]
        rw [List.append_assoc, List.singleton_append, ← List.replicate_succ]
      · rw [if_neg hmem, if_pos (List.mem_cons_self t ts)]
        rw [List.count_cons_self, List.count_eq_zero.mpr hmem]
        simp
    · have hget : mapGet (if t = "" then index else bucketAdd index t i) token =
          mapGet index token := by
        split
        · rfl
        · exact mapGet_bucketAdd_ne index i (fun hc => ht hc.symm)
      rw [ih, hget]
      by_cases hmem : token ∈ ts
      · rw [if_pos hmem, if_pos (List.mem_cons_of_mem t hmem)]
        rw [List.count_cons_of_ne (fun hc => ht hc.symm)]
      · rw [if_neg hmem, if_neg (fun hc => by
          rcases List.mem_cons.mp hc with hc | hc
          · exact ht hc.symm
          · exact hmem hc)]

theorem mapGet_indexRecipe_nil (index : TokenIndex) (i : Nat) (tokens : List String) :
    mapGet (indexRecipe index i tokens) "" = mapGet index "" := by
  induction tokens generalizing index with
  | nil => rfl
  | cons t ts ih =>
    have step : indexRecipe index i (t :: ts) =
        indexRecipe (if t = "" then index else bucketAdd index t i) i ts := by
      simp [indexRecipe, List.foldl_cons]
    rw [step, ih]
    split
    · rfl
    · next ht => exact mapGet_bucketAdd_ne index i (Ne.symm ht)

theorem mapGet_buildTokenIndexAux (dataset : List EnrichedRecipe) (index : TokenIndex)
    (i : Nat) {token : String} (htok : token ≠ "") :
    mapGet (buildTokenIndexAux index i dataset) token =
      if tokenHits token i dataset = [] then mapGet index token
      else some ((mapGet index token).getD [] ++ tokenHits token i dataset) := by
  induction dataset generalizing index i with
  | nil => simp [buildTokenIndexAux, tokenHits]
  | cons recipe rest ih =>
    show mapGet (buildTokenIndexAux
      (indexRecipe index i (insertionDedup (getRecipeTokens recipe))) (i + 1) rest) token = _
    rw [ih]
    have hidx := mapGet_indexRecipe index i (insertionDedup (getRecipeTokens recipe)) htok
    by_cases hmem : token ∈ insertionDedup (getRecipeTokens recipe)
    · rw [if_pos hmem] at hidx
      rw [List.count_eq_one_of_mem (nodup_insertionDedup _) hmem] at hidx
      simp only [List.replicate_one] at hidx
      have hth : tokenHits token i (recipe :: rest) = i :: tokenHits token (i + 1) rest := by
        simp [tokenHits, hmem]
      rw [hth]
      by_cases hrest : tokenHits token (i + 1) rest = []
      · rw [if_pos hrest, hidx, if_neg (List.cons_ne_nil i _), hrest]
      · rw [if_neg hrest, hidx, if_neg (List.cons_ne_nil i _)]
        simp only [Option.getD_some]
        rw [List.append_assoc, List.singleton_append]
    · rw [if_neg hmem] at hidx
      have hth : tokenHits token i (recipe :: rest) = tokenHits token (i + 1) rest := by
        simp [tokenHits, hmem]
      rw [hth, hidx]

theorem mapGet_buildTokenIndexAux_nil (dataset : List EnrichedRecipe) (index : TokenIndex)
    (i : Nat) : mapGet (buildTokenIndexAux index i dataset) "" = mapGet index "" := by
  induction dataset generalizing index i with
  | nil => rfl
  | cons recipe rest ih =>
    show mapGet (buildTokenIndexAux
      (indexRecipe index i (insertionDedup (getRecipeTokens recipe))) (i + 1) rest) "" = _
    rw [ih, mapGet_indexRecipe_nil]

theorem mapGet_buildTokenIndex (dataset : List EnrichedRecipe) {token : String}
    (htok : token ≠ "") :
    mapGet (buildTokenIndex dataset) token =
      if tokenHits token 0 dataset = [] then none else some (tokenHits token 0 dataset) := by
  have := mapGet_buildTokenIndexAux dataset [] 0 htok
  rw [buildTokenIndex]
  rw [this]
  rfl

theorem mapGet_buildTokenIndex_nil (dataset : List EnrichedRecipe) :
    mapGet (buildTokenIndex dataset) "" = none :=
  mapGet_buildTokenIndexAux_nil dataset [] 0

theorem tokenHits_lb {token : String} :
    ∀ (i : Nat) (dataset : List EnrichedRecipe) (j : Nat),
      j ∈ tokenHits token i dataset → i ≤ j := by
  intro i dataset
  induction dataset generalizing i with
  | nil => intro j h; simp [tokenHits] at h
  | cons recipe rest ih =>
    intro j h
    unfold tokenHits at h
    split at h
    · rcases List.mem_cons.mp h with h | h
      · exact h ▸ le_refl j
      · exact Nat.le_of_succ_le (ih (i + 1) j h)
    · exact Nat.le_of_succ_le (ih (i + 1) j h)

theorem tokenHits_sorted {token : String} :
    ∀ (i : Nat) (dataset : List EnrichedRecipe),
      (tokenHits token i dataset).Pairwise (· < ·) := by
  intro i dataset
  induction dataset generalizing i with
  | nil => exact List.Pairwise.nil
  | cons recipe rest ih =>
    unfold tokenHits
    split
    · exact List.pairwise_cons.mpr
        ⟨fun j hj => Nat.lt_of_succ_le (tokenHits_lb (i + 1) rest j hj), ih (i + 1)⟩
    · exact ih (i + 1)

theorem tokenHits_shift (token : String) :
    ∀ (i : Nat) (dataset : List EnrichedRecipe),
      tokenHits token (i + 1) dataset = (tokenHits token i dataset).map (· + 1) := by
  intro i dataset
  induction dataset generalizing i with
  | nil => rfl
  | cons recipe rest ih =>
    simp only [tokenHits]
    split
    · simp only [List.map_cons]
      rw [ih (i + 1)]
    · rw [ih (i + 1)]

theorem tokenHits_mem {token : String} :
    ∀ (dataset : List EnrichedRecipe) (j : Nat),
      j ∈ tokenHits token 0 dataset ↔
        j < dataset.length ∧
          token ∈ insertionDedup (getRecipeTokens (dataset.getD j dfltRecipe)) := by
  intro dataset
  induction dataset with
  | nil => intro j; simp [tokenHits]
  | cons recipe rest ih =>
    intro j
    rw [show tokenHits token 0 (recipe :: rest) =
        (if token ∈ insertionDedup (getRecipeTokens recipe) then
          0 :: tokenHits token 1 rest else tokenHits token 1 rest) from by simp [tokenHits]]
    rw [tokenHits_shift token 0 rest]
    cases j with
    | zero =>
      constructor
      · intro h
        split at h
        · next hmem => exact ⟨Nat.succ_pos _, by simpa using hmem⟩
        · exact absurd h (by simp)
      · rintro ⟨-, hmem⟩
        have hmem' : token ∈ insertionDedup (getRecipeTokens recipe) := by simpa using hmem
        rw [if_pos hmem']
        exact List.mem_cons_self 0 _
    | succ j' =>
      have hmap : (j' + 1 ∈ (tokenHits token 0 rest).map (· + 1)) ↔
          j' ∈ tokenHits token 0 rest := by
        simp
      constructor
      · intro h
        have hj : j' ∈ tokenHits token 0 rest := by
          split at h
          · rcases List.mem_cons.mp h with h0 | h0
            · exact absurd h0 (Nat.succ_ne_zero j')
            · exact hmap.mp h0
          · exact hmap.mp h
        have hres := (ih j').mp hj
        exact ⟨Nat.succ_lt_succ hres.1, by simpa [List.getD_cons_succ] using hres.2⟩
      · rintro ⟨hlt, hmem⟩
        have hj : j' ∈ tokenHits token 0 rest :=
          (ih j').mpr ⟨Nat.lt_of_succ_lt_succ hlt, by simpa [List.getD_cons_succ] using hmem⟩
        split
        · exact List.mem_cons_of_mem _ (hmap.mpr hj)
        · exact hmap.mpr hj

/-- Claim C7: building the token index is a deterministic function of the
record sequence, and within one build no bucket contains a duplicate
position (each record contributes to a token's bucket at most once; the
positions are in fact strictly increasing). -/
theorem c7_theorem (dataset : List EnrichedRecipe) :
    buildTokenIndex dataset = buildTokenIndex dataset ∧
    ∀ token bucket, mapGet (buildTokenIndex dataset) token = some bucket →
      bucket.Pairwise (· < ·) ∧ bucket.Nodup := by
  refine ⟨rfl, ?_⟩
  intro token bucket hget
  by_cases htok : token = ""
  · rw [htok, mapGet_buildTokenIndex_nil] at hget
    exact absurd hget (Option.some_ne_none bucket).symm
  · rw [mapGet_buildTokenIndex dataset htok] at hget
    split at hget
    · exact absurd hget (Option.some_ne_none bucket).symm
    · have hb : bucket = tokenHits token 0 dataset := (Option.some.injEq _ _).mp hget.symm
      subst hb
      refine ⟨tokenHits_sorted 0 dataset, ?_⟩
      exact List.Pairwise.imp Nat.ne_of_lt (tokenHits_sorted 0 dataset)

theorem c7_witness :
    ([0] : List Nat).Pairwise (· < ·) ∧ ([0] : List Nat).Nodup :=
  (c7_theorem [{ dfltRecipe with nerTokens := ["egg"] }]).2 "egg" [0] (by decide)

theorem scoreGet_scoreAdd_self (scores : List (Nat × Nat)) (i : Nat) :
    scoreGet (scoreAdd scores i) i = scoreGet scores i + 1 := by
  induction scores with
  | nil => simp [scoreAdd, scoreGet]
  | cons kv rest ih =>
    obtain ⟨k, v⟩ := kv
    by_cases hk : k = i
    · subst hk
      simp [scoreAdd, scoreGet]
    · simp only [scoreAdd, scoreGet, if_neg hk]
      exact ih

theorem scoreGet_scoreAdd_ne (scores : List (Nat × Nat)) {i j : Nat} (h : j ≠ i) :
    scoreGet (scoreAdd scores i) j = scoreGet scores j := by
  have hij : ¬ (i = j) := fun hc => h hc.symm
  induction scores with
  | nil =>
    show scoreGet [(i, 1)] j = 0
    simp [scoreGet, hij]
  | cons kv rest ih =>
    obtain ⟨k, v⟩ := kv
    by_cases hk : k = i
    · subst hk
      have hred : scoreAdd ((k, v) :: rest) k = (k, v + 1) :: rest := by simp [scoreAdd]
      rw [hred]
      simp only [scoreGet]
      rw [if_neg hij, if_neg hij]
    · have hred : scoreAdd ((k, v) :: rest) i = (k, v) :: scoreAdd rest i := by
        simp [scoreAdd, hk]
      rw [hred]
      simp only [scoreGet]
      by_cases ho : k = j
      · rw [if_pos ho, if_pos ho]
      · rw [if_neg ho, if_neg ho]
        exact ih

theorem scoreGet_foldl_scoreAdd (bucket : List Nat) :
    ∀ (scores : List (Nat × Nat)) (j : Nat),
      scoreGet (bucket.foldl scoreAdd scores) j = scoreGet scores j + bucket.count j := by
  induction bucket with
  | nil => intro scores j; simp
  | cons i rest ih =>
    intro scores j
    simp only [List.foldl_cons]
    rw [ih]
    by_cases hj : j = i
    · subst hj
      rw [scoreGet_scoreAdd_self, List.count_cons_self]
      omega
    · rw [scoreGet_scoreAdd_ne scores hj,
        List.count_cons_of_ne (fun hc => hj (by exact_mod_cast hc))]

theorem scoreGet_scoreCandidates (tokens : List String) (tokenIndex : TokenIndex) (j : Nat) :
    scoreGet (scoreCandidatesByTokenHits tokens tokenIndex) j =
      (tokens.map (fun token => ((mapGet tokenIndex token).getD []).count j)).sum := by
  have hgen : ∀ (acc : List (Nat × Nat)),
      scoreGet (tokens.foldl
        (fun acc token =>
          match mapGet tokenIndex token with
          | none => acc
          | some ms => ms.foldl scoreAdd acc) acc) j =
        scoreGet acc j + (tokens.map (fun token => ((mapGet tokenIndex token).getD []).count j)).sum := by
    induction tokens with
    | nil => intro acc; simp
    | cons t ts ih =>
      intro acc
      simp only [List.foldl_cons, List.map_cons, List.sum_cons]
      rw [ih]
      cases hm : mapGet tokenIndex t with
      | none => simp
      | some bucket =>
        rw [scoreGet_foldl_scoreAdd]
        simp only [Option.getD_some]
        omega
  have := hgen []
  simpa [scoreCandidatesByTokenHits, scoreGet] using this

theorem keys_scoreAdd (scores : List (Nat × Nat)) (i : Nat) :
    (scoreAdd scores i).map Prod.fst =
      if i ∈ scores.map Prod.fst then scores.map Prod.fst
      else scores.map Prod.fst ++ [i] := by
  induction scores with
  | nil => simp [scoreAdd]
  | cons kv rest ih =>
    obtain ⟨k, v⟩ := kv
    by_cases hk : k = i
    · subst hk
      simp [scoreAdd]
    · have hred : scoreAdd ((k, v) :: rest) i = (k, v) :: scoreAdd rest i := by
        simp [scoreAdd, hk]
      rw [hred]
      simp only [List.map_cons, ih, List.mem_cons]
      by_cases hmem : i ∈ rest.map Prod.fst
      · rw [if_pos hmem, if_pos (Or.inr hmem)]
      · rw [if_neg hmem, if_neg (fun hc => by
          rcases hc with hc | hc
          · exact hk hc.symm
          · exact hmem hc)]
        simp

theorem keysNodup_scoreAdd {scores : List (Nat × Nat)} (i : Nat)
    (h : (scores.map Prod.fst).Nodup) : ((scoreAdd scores i).map Prod.fst).Nodup := by
  rw [keys_scoreAdd]
  split
  · exact h
  · next hmem => simp [List.nodup_append, h, hmem]

theorem keysNodup_foldl_scoreAdd (bucket : List Nat) :
    ∀ {scores : List (Nat × Nat)}, (scores.map Prod.fst).Nodup →
      ((bucket.foldl scoreAdd scores).map Prod.fst).Nodup := by
  induction bucket with
  | nil => intro scores h; exact h
  | cons i rest ih =>
    intro scores h
    simp only [List.foldl_cons]
    exact ih (keysNodup_scoreAdd i h)

theorem keysNodup_scoreCandidates (tokens : List String) (tokenIndex : TokenIndex) :
    ((scoreCandidatesByTokenHits tokens tokenIndex).map Prod.fst).Nodup := by
  have hgen : ∀ (acc : List (Nat × Nat)), (acc.map Prod.fst).Nodup →
      ((tokens.foldl
        (fun acc token =>
          match mapGet tokenIndex token with
          | none => acc
          | some ms => ms.foldl scoreAdd acc) acc).map Prod.fst).Nodup := by
    induction tokens with
    | nil => intro acc h; exact h
    | cons t ts ih =>
      intro acc h
      simp only [List.foldl_cons]
      cases hm : mapGet tokenIndex t with
      | none => simpa [hm] using ih acc h
      | some bucket =>
        have hstep := keysNodup_foldl_scoreAdd bucket h
        simpa [hm] using ih (bucket.foldl scoreAdd acc) hstep
  simpa [scoreCandidatesByTokenHits] using hgen [] (by simp)

theorem scoreGet_of_mem {scores : List (Nat × Nat)} {j v : Nat}
    (hnd : (scores.map Prod.fst).Nodup) (hmem : (j, v) ∈ scores) :
    scoreGet scores j = v := by
  induction scores with
  | nil => exact absurd hmem (List.not_mem_nil _)
  | cons kv rest ih =>
    obtain ⟨k, w⟩ := kv
    rcases List.mem_cons.mp hmem with h | h
    · injection h with h1 h2
      subst h1; subst h2
      simp [scoreGet]
    · have hk : k ≠ j := by
        intro hc
        subst hc
        have : k ∈ rest.map Prod.fst := List.mem_map.mpr ⟨(k, v), h, rfl⟩
        exact (List.nodup_cons.mp (by simpa using hnd)).1 this
      simp only [scoreGet, if_neg hk]
      exact ih (List.nodup_cons.mp (by simpa using hnd)).2 h

theorem mem_keys_scoreAdd {scores : List (Nat × Nat)} {p : Nat × Nat} {i : Nat}
    (h : p ∈ scoreAdd scores i) : p.1 ∈ scores.map Prod.fst ∨ p.1 = i := by
  induction scores with
  | nil =>
    simp only [scoreAdd, List.mem_singleton] at h
    exact Or.inr (by rw [h])
  | cons kv rest ih =>
    obtain ⟨k, v⟩ := kv
    by_cases hk : k = i
    · subst hk
      have hred : scoreAdd ((k, v) :: rest) k = (k, v + 1) :: rest := by simp [scoreAdd]
      rw [hred] at h
      rcases List.mem_cons.mp h with h | h
      · exact Or.inr (by rw [h])
      · exact Or.inl (List.mem_cons_of_mem _ (List.mem_map.mpr ⟨p, h, rfl⟩))
    · have hred : scoreAdd ((k, v) :: rest) i = (k, v) :: scoreAdd rest i := by
        simp [scoreAdd, hk]
      rw [hred] at h
      rcases List.mem_cons.mp h with h | h
      · exact Or.inl (by rw [h]; simp)
      · rcases ih h with h | h
        · exact Or.inl (by simp only [List.map_cons, List.mem_cons]; exact Or.inr h)
        · exact Or.inr h

theorem mem_keys_foldl_scoreAdd (bucket : List Nat) :
    ∀ {scores : List (Nat × Nat)} {p : Nat × Nat},
      p ∈ bucket.foldl scoreAdd scores → p.1 ∈ scores.map Prod.fst ∨ p.1 ∈ bucket := by
  induction bucket with
  | nil => intro scores p h; exact Or.inl (List.mem_map.mpr ⟨p, h, rfl⟩)
  | cons i rest ih =>
    intro scores p h
    simp only [List.foldl_cons] at h
    rcases ih h with h2 | h2
    · rcases List.mem_map.mp h2 with ⟨q, hq, hq1⟩
      rcases mem_keys_scoreAdd hq with h3 | h3
      · exact Or.inl (hq1 ▸ h3)
      · exact Or.inr (by rw [← hq1, h3]; exact List.mem_cons_self i rest)
    · exact Or.inr (List.mem_cons_of_mem i h2)

theorem keys_foldl_scoreAdd_mem (bucket : List Nat) {scores : List (Nat × Nat)} {j : Nat}
    (h : j ∈ (bucket.foldl scoreAdd scores).map Prod.fst) :
    j ∈ scores.map Prod.fst ∨ j ∈ bucket := by
  rcases List.mem_map.mp h with ⟨q, hq, hq1⟩
  rcases mem_keys_foldl_scoreAdd bucket hq with h2 | h2
  · exact Or.inl (hq1 ▸ h2)
  · exact Or.inr (hq1 ▸ h2)

theorem mem_scoreCandidates_key {tokens : List String} {tokenIndex : TokenIndex}
    {p : Nat × Nat} (h : p ∈ scoreCandidatesByTokenHits tokens tokenIndex) :
    ∃ token ∈ tokens, ∃ bucket, mapGet tokenIndex token = some bucket ∧ p.1 ∈ bucket := by
  have hgen : ∀ (ts : List String) (acc : List (Nat × Nat)),
      p ∈ ts.foldl
        (fun acc token =>
          match mapGet tokenIndex token with
          | none => acc
          | some ms => ms.foldl scoreAdd acc) acc →
      p.1 ∈ acc.map Prod.fst ∨
        ∃ token ∈ ts, ∃ bucket, mapGet tokenIndex token = some bucket ∧ p.1 ∈ bucket := by
    intro ts
    induction ts with
    | nil => intro acc h2; exact Or.inl (List.mem_map.mpr ⟨p, h2, rfl⟩)
    | cons t ts2 ih =>
      intro acc h2
      simp only [List.foldl_cons] at h2
      cases hm : mapGet tokenIndex t with
      | none =>
        rw [hm] at h2
        rcases ih acc h2 with h3 | ⟨tok, htok, b2, hb, hp⟩
        · exact Or.inl h3
        · exact Or.inr ⟨tok, List.mem_cons_of_mem t htok, b2, hb, hp⟩
      | some bucket =>
        rw [hm] at h2
        rcases ih (bucket.foldl scoreAdd acc) h2 with h3 | ⟨tok, htok, b2, hb, hp⟩
        · rcases keys_foldl_scoreAdd_mem bucket h3 with h4 | h4
          · exact Or.inl h4
          · exact Or.inr ⟨t, List.mem_cons_self t ts2, bucket, hm, h4⟩
        · exact Or.inr ⟨tok, List.mem_cons_of_mem t htok, b2, hb, hp⟩
  rcases hgen tokens [] (by simpa [scoreCandidatesByTokenHits] using h) with h2 | h2
  · simp at h2
  · exact h2

theorem sum_indicator_eq_length_filter {α : Type} (P : α → Prop) [DecidablePred P]
    (l : List α) :
    (l.map (fun a => if P a then 1 else 0)).sum = (l.filter (fun a => P a)).length := by
  induction l with
  | nil => rfl
  | cons a as ih =>
    by_cases h : P a
    · simp [h, ih, List.filter_cons]
      omega
    · simp [h, ih, List.filter_cons]

theorem riskyTokensOf_ne_nil_mem {items : List Item} {token : String}
    (h : token ∈ riskyTokensOf items) : token ≠ "" := by
  unfold riskyTokensOf at h
  have := mem_insertionDedup.mp h
  exact (List.mem_filter.mp this).2 |> of_decide_eq_true

theorem scoreCandidates_semantics (items : List Item) (dataset : List EnrichedRecipe)
    {p : Nat × Nat}
    (hp : p ∈ scoreCandidatesByTokenHits (riskyTokensOf items) (buildTokenIndex dataset)) :
    p.1 < dataset.length ∧
      p.2 = ((riskyTokensOf items).filter
        (fun token => token ∈ getRecipeTokens (dataset.getD p.1 dfltRecipe))).length := by
  obtain ⟨t, htmem, bucket, hb, hpb⟩ := mem_scoreCandidates_key hp
  have htne : t ≠ "" := riskyTokensOf_ne_nil_mem htmem
  have hlen : p.1 < dataset.length := by
    rw [mapGet_buildTokenIndex dataset htne] at hb
    split at hb
    · exact absurd hb (by simp)
    · have hb2 : bucket = tokenHits t 0 dataset := by
        injection hb with hb
        exact hb.symm
      rw [hb2] at hpb
      exact ((tokenHits_mem dataset p.1).mp hpb).1
  refine ⟨hlen, ?_⟩
  have hval : p.2 = scoreGet
      (scoreCandidatesByTokenHits (riskyTokensOf items) (buildTokenIndex dataset)) p.1 :=
    (scoreGet_of_mem (keysNodup_scoreCandidates _ _) hp).symm
  rw [hval, scoreGet_scoreCandidates]
  have hcnt : ∀ token ∈ riskyTokensOf items,
      ((mapGet (buildTokenIndex dataset) token).getD []).count p.1 =
        if token ∈ getRecipeTokens (dataset.getD p.1 dfltRecipe) then 1 else 0 := by
    intro token htok
    have htokne : token ≠ "" := riskyTokensOf_ne_nil_mem htok
    have hbucket : (mapGet (buildTokenIndex dataset) token).getD [] =
        tokenHits token 0 dataset := by
      rw [mapGet_buildTokenIndex dataset htokne]
      split
      · next hnil => rw [hnil]; rfl
      · rfl
    rw [hbucket]
    by_cases hmem : token ∈ getRecipeTokens (dataset.getD p.1 dfltRecipe)
    · rw [if_pos hmem]
      have : p.1 ∈ tokenHits token 0 dataset :=
        (tokenHits_mem dataset p.1).mpr ⟨hlen, mem_insertionDedup.mpr hmem⟩
      exact List.count_eq_one_of_mem
        (List.Pairwise.imp Nat.ne_of_lt (tokenHits_sorted 0 dataset)) this
    · rw [if_neg hmem]
      refine List.count_eq_zero.mpr (fun hc => hmem ?_)
      have := (tokenHits_mem dataset p.1).mp hc
      exact mem_insertionDedup.mp this.2
  calc ((riskyTokensOf items).map
      (fun token => ((mapGet (buildTokenIndex dataset) token).getD []).count p.1)).sum
      = ((riskyTokensOf items).map
        (fun token => if token ∈ getRecipeTokens (dataset.getD p.1 dfltRecipe)
          then 1 else 0)).sum := by
        congr 1
        exact List.map_congr_left hcnt
    _ = _ := sum_indicator_eq_length_filter _ _

theorem useNowScored_cases (items : List Item) (limit : Nat) (dataset : List EnrichedRecipe) :
    getUseNowRecipesScored items limit dataset = [] ∨
    getUseNowRecipesScored items limit dataset =
      (List.insertionSort hitRel
        ((scoreCandidatesByTokenHits (riskyTokensOf items) (buildTokenIndex dataset)).map
          (fun p => (dataset.getD p.1 dfltRecipe, p.2)))).take limit := by
  unfold getUseNowRecipesScored riskyTokensOf
  dsimp only
  split_ifs <;> first | exact Or.inl rfl | exact Or.inr rfl

/-- Claim C5: `getUseNowRecipes` returns the empty list when no pantry item
has risk level `"use-now"` or `"risky"` (in particular when all are
`"safe"`) or when those items yield no non-empty normalized token;
otherwise the underlying scored list ranks recipes by the raw count of
distinct risky-item tokens contained in the recipe's effective token set,
sorted descending by hit count with ties by ascending `time_min ?? 0`,
truncated to `limit`, and the public result is its projection. -/
theorem c5_theorem (items : List Item) (limit : Nat) (dataset : List EnrichedRecipe) :
    ((∀ item ∈ items, item.risk_level ≠ "use-now" ∧ item.risk_level ≠ "risky") →
        getUseNowRecipes items limit dataset = []) ∧
    (riskyTokensOf items = [] → getUseNowRecipes items limit dataset = []) ∧
    (getUseNowRecipesScored items limit dataset).Pairwise hitRel ∧
    (getUseNowRecipesScored items limit dataset).length ≤ limit ∧
    (∀ entry ∈ getUseNowRecipesScored items limit dataset,
        entry.2 = ((riskyTokensOf items).filter
          (fun token => token ∈ getRecipeTokens entry.1)).length) ∧
    getUseNowRecipes items limit dataset =
      (getUseNowRecipesScored items limit dataset).map
        (fun entry => stripInternalFields entry.1) := by
  refine ⟨?_, ?_, ?_, ?_, ?_, rfl⟩
  · intro h
    have hrisky : items.filter
        (fun item => item.risk_level = "use-now" || item.risk_level = "risky") = [] := by
      rw [List.filter_eq_nil_iff]
      intro a ha
      simp [(h a ha).1, (h a ha).2]
    unfold getUseNowRecipes getUseNowRecipesScored
    simp [hrisky]
  · intro htok
    simp only [riskyTokensOf, ne_eq, decide_not] at htok
    unfold getUseNowRecipes getUseNowRecipesScored
    dsimp only
    by_cases hri : items.filter
        (fun item => item.risk_level = "use-now" || item.risk_level = "risky") = []
    · simp [hri]
    · simp [hri, htok]
  · rcases useNowScored_cases items limit dataset with hc | hc
    · rw [hc]; exact List.Pairwise.nil
    · rw [hc]
      exact (List.sorted_insertionSort hitRel _).sublist (List.take_sublist _ _)
  · rcases useNowScored_cases items limit dataset with hc | hc
    · rw [hc]; exact Nat.zero_le limit
    · rw [hc]; exact List.length_take_le _ _
  · intro entry hmem
    rcases useNowScored_cases items limit dataset with hc | hc
    · rw [hc] at hmem; exact absurd hmem (List.not_mem_nil entry)
    · rw [hc] at hmem
      have hmem2 := (List.take_sublist _ _).subset hmem
      have hmem3 := (List.perm_insertionSort hitRel _).mem_iff.mp hmem2
      obtain ⟨p, hp, heq⟩ := List.mem_map.mp hmem3
      have hsem := (scoreCandidates_semantics items dataset hp).2
      rw [← heq]
      exact hsem

theorem c5_witness : getUseNowRecipes [⟨"milk", "safe"⟩] 5 [] = [] :=
  ( c5_theorem [⟨"milk", "safe"⟩] 5 []).1 (by decide)

theorem readCsvLines_mem (parseArr : String → JsParsed) :
    ∀ (i : Nat) (lines : List String) (records : List EnrichedRecipe),
      readCsvLines parseArr i lines = .ok records →
        ∀ r ∈ records, ∃ j row ingredientValues directions ner,
          ¬ (ingredientValues : List String).map toRecipeIngredient = [] ∧
          r = csvRowToRecipe j row (ingredientValues.map toRecipeIngredient)
            directions ner := by
  intro i lines
  induction lines generalizing i with
  | nil =>
    intro records h r hr
    simp only [readCsvLines, Except.ok.injEq] at h
    subst h
    exact absurd hr (List.not_mem_nil r)
  | cons line rest ih =>
    intro records h r hr
    unfold readCsvLines at h
    dsimp only at h
    split at h
    · exact ih i records h r hr
    · split at h
      · exact ih i records h r hr
      · split at h
        · exact ih i records h r hr
        · split at h
          · simp at h
          · next ingredientValues hingr =>
            split at h
            · exact ih i records h r hr
            · next hne =>
              split at h
              · simp at h
              · next directions hdirs =>
                split at h
                · simp at h
                · next ner hners =>
                  split at h
                  · simp at h
                  · next restRecords hrest =>
                    rw [Except.ok.injEq] at h
                    subst h
                    rcases List.mem_cons.mp hr with heq | hmem
                    · exact ⟨i, parseCsvLine line, ingredientValues, directions, ner,
                        hne, heq⟩
                    · exact ih (i + 1) restRecords hrest r hmem

theorem readCsvLines_invariant (parseArr : String → JsParsed) (i : Nat)
    (lines : List String) (records : List EnrichedRecipe)
    (h : readCsvLines parseArr i lines = .ok records) :
    ∀ r ∈ records, r.ingredients ≠ [] ∧ r.tags ≠ [] := by
  intro r hr
  obtain ⟨j, row, ingredientValues, directions, ner, hne, hr'⟩ :=
    readCsvLines_mem parseArr i lines records h r hr
  subst hr'
  refine ⟨?_, toTags_ne_nil _ _⟩
  have hing : (csvRowToRecipe j row (ingredientValues.map toRecipeIngredient)
      directions ner).ingredients = ingredientValues.map toRecipeIngredient := by
    simp [csvRowToRecipe, hne]
  rw [hing]
  exact hne

theorem readDatasetFromCsv_invariant (parseArr : String → JsParsed)
    (csv : Option (List String)) (records : List EnrichedRecipe)
    (h : readDatasetFromCsv parseArr csv = .ok records) :
    ∀ r ∈ records, r.ingredients ≠ [] ∧ r.tags ≠ [] := by
  intro r hr
  cases csv with
  | none =>
    simp only [readDatasetFromCsv, Except.ok.injEq] at h
    subst h
    exact absurd hr (List.not_mem_nil r)
  | some lines =>
    cases lines with
    | nil =>
      simp only [readDatasetFromCsv, Except.ok.injEq] at h
      subst h
      exact absurd hr (List.not_mem_nil r)
    | cons header rest => exact readCsvLines_invariant parseArr 0 rest records h r hr

theorem jsonRecipes_invariant :
    ∀ (i : Nat) (payload : List JsonEntry) (r : EnrichedRecipe),
      r ∈ jsonRecipes i payload →
        r.tags ≠ [] ∧ (r.ingredients = [] → r.nerTokens = []) := by
  intro i payload
  induction payload generalizing i with
  | nil => intro r h; simp [jsonRecipes] at h
  | cons entry rest ih =>
    intro r h
    rcases List.mem_cons.mp h with heq | hmem
    · subst heq
      refine ⟨toTags_ne_nil _ _, ?_⟩
      intro hing
      by_cases hsrc : entry.ingredients = []
      · have hrec : (jsonEntryToRecipe i entry).ingredients =
            (((entry.ner_tokens.getD []).map normalizeToken).filter (· ≠ "")).map
              (fun token => (⟨token, 0, ""⟩ : RecipeIngredient)) := by
          simp [jsonEntryToRecipe, hsrc]
        rw [hrec] at hing
        exact List.map_eq_nil_iff.mp hing
      · have hrec : (jsonEntryToRecipe i entry).ingredients = entry.ingredients := by
          simp [jsonEntryToRecipe, hsrc]
        rw [hrec] at hing
        exact absurd hing hsrc
    · exact ih (i + 1) r hmem

/-- Claim C1 counterexample: loading a JSON cache whose single entry has an
empty ingredient list and no NER tokens yields a record with zero
ingredients, refuting "every RecipeRecord ... has at least one
ingredient". -/
theorem c1_counterexample :
    (readDatasetFromJson (some (JsonParse.entries
        [⟨"x", [], [], none, none, none⟩]))).map
      (Option.map (List.map EnrichedRecipe.ingredients)) =
      Except.ok (some [[]]) := by
  rfl

/-- Claim C1 amended: every loaded record has at least one tag; every
CSV-path record additionally has at least one ingredient; a JSON-path
record can only lack ingredients when both its source ingredient list and
its normalized NER token list are empty (ingredients are synthesized from
NER tokens when the source list is empty). -/
theorem c1_theorem (parseArr : String → JsParsed) (csv : Option (List String))
    (json : Option JsonParse) (dataset csvRecords : List EnrichedRecipe)
    (h : loadDataset parseArr csv json = .ok dataset)
    (hcsv : readDatasetFromCsv parseArr csv = .ok csvRecords) :
    (∀ r ∈ dataset, r.tags ≠ [] ∧ (r.ingredients = [] → r.nerTokens = [])) ∧
    (∀ r ∈ csvRecords, r.ingredients ≠ [] ∧ r.tags ≠ []) := by
  refine ⟨?_, readDatasetFromCsv_invariant parseArr csv csvRecords hcsv⟩
  have hcsvBoth : ∀ r ∈ csvRecords,
      r.tags ≠ [] ∧ (r.ingredients = [] → r.nerTokens = []) := by
    intro r hr
    have := readDatasetFromCsv_invariant parseArr csv csvRecords hcsv r hr
    exact ⟨this.2, fun hc => absurd hc this.1⟩
  cases json with
  | none =>
    have h' : readDatasetFromCsv parseArr csv = .ok dataset := by
      simpa [loadDataset, readDatasetFromJson] using h
    rw [h'] at hcsv
    have hds : dataset = csvRecords := (Except.ok.injEq _ _).mp hcsv
    rw [hds]
    exact hcsvBoth
  | some jp =>
    cases jp with
    | malformed => simp [loadDataset, readDatasetFromJson] at h
    | nonArray => simp [loadDataset, readDatasetFromJson] at h
    | entries payload =>
      by_cases hne : jsonRecipes 0 payload = []
      · have h' : readDatasetFromCsv parseArr csv = .ok dataset := by
          simpa [loadDataset, readDatasetFromJson, hne] using h
        rw [h'] at hcsv
        have hds : dataset = csvRecords := (Except.ok.injEq _ _).mp hcsv
        rw [hds]
        exact hcsvBoth
      · have hds : jsonRecipes 0 payload = dataset := by
          simpa [loadDataset, readDatasetFromJson, hne] using h
        intro r hr
        exact jsonRecipes_invariant 0 payload r (hds ▸ hr)

theorem c1_witness :
    (((readDatasetFromCsv (fun _ => JsParsed.arr ["salt"])
        (some ["header", "0,Soup,x,y,site.com,src,z"])).toOption.getD []).getD 0
      dfltRecipe).ingredients ≠ [] ∧
    (((readDatasetFromCsv (fun _ => JsParsed.arr ["salt"])
        (some ["header", "0,Soup,x,y,site.com,src,z"])).toOption.getD []).getD 0
      dfltRecipe).tags ≠ [] :=
  (c1_theorem (fun _ => JsParsed.arr ["salt"]) (some ["header", "0,Soup,x,y,site.com,src,z"])
    none
    ((readDatasetFromCsv (fun _ => JsParsed.arr ["salt"])
      (some ["header", "0,Soup,x,y,site.com,src,z"])).toOption.getD [])
    ((readDatasetFromCsv (fun _ => JsParsed.arr ["salt"])
      (some ["header", "0,Soup,x,y,site.com,src,z"])).toOption.getD [])
    rfl rfl).2 _ (by decide)

theorem jsStartsWith_https (link : String) :
    jsStartsWith ("https://" ++ link) "http" = true := by
  show leadMatch "http".data ("https://" ++ link).data = true
  rw [String.data_append]
  rfl

theorem normalizeLink_spec (link : String) :
    normalizeLink link = none ∨
      ∃ s, normalizeLink link = some s ∧ jsStartsWith s "http" = true := by
  unfold normalizeLink
  split_ifs with h1 h2
  · exact Or.inl rfl
  · exact Or.inr ⟨link, rfl, h2⟩
  · exact Or.inr ⟨_, rfl, jsStartsWith_https link⟩

theorem readCsvLines_link (parseArr : String → JsParsed) (i : Nat)
    (lines : List String) (records : List EnrichedRecipe)
    (h : readCsvLines parseArr i lines = .ok records) :
    ∀ r ∈ records,
      r.source_url = none ∨
        ∃ s, r.source_url = some s ∧ jsStartsWith s "http" = true := by
  intro r hr
  obtain ⟨j, row, ingredientValues, directions, ner, hne, hr'⟩ :=
    readCsvLines_mem parseArr i lines records h r hr
  subst hr'
  exact normalizeLink_spec _

theorem jsonRecipes_link :
    ∀ (i : Nat) (payload : List JsonEntry) (r : EnrichedRecipe),
      r ∈ jsonRecipes i payload → ∃ entry ∈ payload, r.source_url = entry.link := by
  intro i payload
  induction payload generalizing i with
  | nil => intro r h; simp [jsonRecipes] at h
  | cons entry rest ih =>
    intro r h
    rcases List.mem_cons.mp h with heq | hmem
    · exact ⟨entry, List.mem_cons_self entry rest, by subst heq; rfl⟩

    · obtain ⟨e, he, hl⟩ := ih (i + 1) r hmem
      exact ⟨e, List.mem_cons_of_mem entry he, hl⟩

/-- Claim C6 counterexample: a JSON cache entry with the scheme-less link
`"example.com"` is loaded with `source_url = "example.com"` verbatim — the
JSON ingestion path does not apply `normalizeLink` (which would have
produced `"https://example.com"`), refuting the claim for that path. -/
theorem c6_counterexample :
    (readDatasetFromJson (some (JsonParse.entries
        [⟨"x", [⟨"a", 0, ""⟩], [], none, some "example.com", none⟩]))).map
      (Option.map (List.map EnrichedRecipe.source_url)) =
        Except.ok (some [some "example.com"]) ∧
    jsStartsWith "example.com" "http" = false ∧
    normalizeLink "example.com" = some "https://example.com" := by
  refine ⟨rfl, rfl, ?_⟩
  show normalizeLink "example.com" = some "https://example.com"
  rfl

/-- Claim C6 amended: every CSV-path record's `source_url` is `none` or a
string starting with `"http"` (the `normalizeLink` contract); every
JSON-path record instead carries its entry's raw `link` value unchanged
(absent modelled as `none`). -/
theorem c6_theorem (parseArr : String → JsParsed) (csv : Option (List String))
    (payload : List JsonEntry) :
    (∀ csvRecords, readDatasetFromCsv parseArr csv = .ok csvRecords →
      ∀ r ∈ csvRecords,
        r.source_url = none ∨
          ∃ s, r.source_url = some s ∧ jsStartsWith s "http" = true) ∧
    (∀ dataset, readDatasetFromJson (some (JsonParse.entries payload)) = .ok (some dataset) →
      ∀ r ∈ dataset, ∃ entry ∈ payload, r.source_url = entry.link) := by
  constructor
  · intro csvRecords hok r hr
    cases csv with
    | none =>
      simp only [readDatasetFromCsv, Except.ok.injEq] at hok
      subst hok
      exact absurd hr (List.not_mem_nil r)
    | some lines =>
      cases lines with
      | nil =>
        simp only [readDatasetFromCsv, Except.ok.injEq] at hok
        subst hok
        exact absurd hr (List.not_mem_nil r)
      | cons header rest => exact readCsvLines_link parseArr 0 rest csvRecords hok r hr
  · intro dataset hds r hr
    have : jsonRecipes 0 payload = dataset := by
      simpa [readDatasetFromJson] using hds
    exact jsonRecipes_link 0 payload r (this ▸ hr)

theorem c6_witness :
    (((readDatasetFromCsv (fun _ => JsParsed.arr ["salt"])
        (some ["header", "0,Soup,x,y,site.com,src,z"])).toOption.getD []).getD 0
      dfltRecipe).source_url = none ∨
      ∃ s, (((readDatasetFromCsv (fun _ => JsParsed.arr ["salt"])
        (some ["header", "0,Soup,x,y,site.com,src,z"])).toOption.getD []).getD 0
      dfltRecipe).source_url = some s ∧
        jsStartsWith s "http" = true :=
  (c6_theorem (fun _ => JsParsed.arr ["salt"])
    (some ["header", "0,Soup,x,y,site.com,src,z"]) []).1
    ((readDatasetFromCsv (fun _ => JsParsed.arr ["salt"])
      (some ["header", "0,Soup,x,y,site.com,src,z"])).toOption.getD [])
    rfl _ (by decide)

theorem getRandomE_eq (rng : Nat → Nat) (parseArr : String → JsParsed)
    (csv : Option (List String)) (json : Option JsonParse) (count : Nat)
    {dataset : List EnrichedRecipe}
    (hld : loadDataset parseArr csv json = .ok dataset) :
    getRandomOpenRecipesE rng parseArr csv json count =
      .ok (getRandomOpenRecipesCore rng dataset count) := by
  unfold getRandomOpenRecipesE
  rw [hld]
  rfl

theorem getBestE_eq (parseArr : String → JsParsed) (csv : Option (List String))
    (json : Option JsonParse) (items : List Item) (limit : Nat)
    {dataset : List EnrichedRecipe}
    (hld : loadDataset parseArr csv json = .ok dataset) :
    getBestPantryMatchesE parseArr csv json items limit =
      .ok (getBestPantryMatches items limit dataset) := by
  unfold getBestPantryMatchesE
  split_ifs with h1 h2
  · have : getBestPantryMatches items limit dataset = [] := by
      simp [getBestPantryMatches, getBestPantryMatchesScored, h1]
    rw [this]
  · have : getBestPantryMatches items limit dataset = [] := by
      simp [getBestPantryMatches, getBestPantryMatchesScored, h1, h2]
    rw [this]
  · rw [hld]
    rfl

theorem getUseNowE_eq (parseArr : String → JsParsed) (csv : Option (List String))
    (json : Option JsonParse) (items : List Item) (limit : Nat)
    {dataset : List EnrichedRecipe}
    (hld : loadDataset parseArr csv json = .ok dataset) :
    getUseNowRecipesE parseArr csv json items limit =
      .ok (getUseNowRecipes items limit dataset) := by
  unfold getUseNowRecipesE
  split_ifs with h1 h2
  · have : getUseNowRecipes items limit dataset = [] := by
      simp [getUseNowRecipes, getUseNowRecipesScored, h1]
    rw [this]
  · have : getUseNowRecipes items limit dataset = [] := by
      simp only [riskyTokensOf, ne_eq, decide_not] at h2
      simp [getUseNowRecipes, getUseNowRecipesScored, h1, h2]
    rw [this]
  · rw [hld]
    rfl

theorem searchE_eq (fuseSearch : String → Nat → List EnrichedRecipe)
    (parseArr : String → JsParsed) (csv : Option (List String))
    (json : Option JsonParse) (query : String) (limit : Nat)
    {dataset : List EnrichedRecipe}
    (hld : loadDataset parseArr csv json = .ok dataset) :
    searchOpenRecipesE fuseSearch parseArr csv json query limit =
      .ok (searchOpenRecipes fuseSearch dataset query limit) := by
  unfold searchOpenRecipesE
  split_ifs with h1
  · have : searchOpenRecipes fuseSearch dataset query limit = [] := by
      simp [searchOpenRecipes, h1]
    rw [this]
  · rw [hld]
    rfl

/-- Claim C2 counterexample: the dataset load rejects — and the rejection
propagates out of the entry points — when the JSON cache file is present
but its contents do not parse as JSON, when they parse as valid non-array
JSON (the `payload.map` `TypeError`), and also with no cache at all when a
kept CSV row's ingredient field parses as valid non-array JSON (e.g. the
field `5`: `safeParseArray` returns the number under the unchecked cast
and `.map(toRecipeIngredient)` throws), refuting "never propagates an
exception ... for every input state of the dataset files". -/
theorem c2_counterexample :
    getRandomOpenRecipesE (fun _ => 0) (fun _ => JsParsed.arr []) none
      (some JsonParse.malformed) 5 = Except.error () ∧
    getRandomOpenRecipesE (fun _ => 0) (fun _ => JsParsed.arr []) none
      (some JsonParse.nonArray) 5 = Except.error () ∧
    getRandomOpenRecipesE (fun _ => 0)
      (fun value => if value = "5" then JsParsed.nonArray else JsParsed.arr ["x"])
      (some ["header", "0,Soup,5,[],link,src,[]"]) none 5 = Except.error () ∧
    searchOpenRecipesE (fun _ _ => []) (fun _ => JsParsed.arr []) none
      (some JsonParse.malformed) "soup" 10 = Except.error () := by
  exact ⟨rfl, rfl, rfl, rfl⟩

/-- Claim C2 amended: every public entry point returns an `ok` result list
whenever `loadDataset` succeeds — in particular both dataset files being
absent is the normal empty state, loading the empty dataset; and a
dataset-load rejection (a JSON cache present whose contents parse as
non-JSON or as valid non-array JSON, or — the cache being absent or
empty — a kept CSV row whose ingredient/direction/NER field parses as
valid non-array JSON) propagates out of every entry point whose early
guards pass. -/
theorem c2_theorem (rng : Nat → Nat) (parseArr : String → JsParsed)
    (fuseSearch : String → Nat → List EnrichedRecipe) (csv : Option (List String))
    (json : Option JsonParse) (items : List Item) (query : String) (count limit : Nat) :
    (∀ dataset, loadDataset parseArr csv json = .ok dataset →
      getRandomOpenRecipesE rng parseArr csv json count =
        .ok (getRandomOpenRecipesCore rng dataset count) ∧
      getBestPantryMatchesE parseArr csv json items limit =
        .ok (getBestPantryMatches items limit dataset) ∧
      getUseNowRecipesE parseArr csv json items limit =
        .ok (getUseNowRecipes items limit dataset) ∧
      searchOpenRecipesE fuseSearch parseArr csv json query limit =
        .ok (searchOpenRecipes fuseSearch dataset query limit)) ∧
    (∀ e, loadDataset parseArr csv json = .error e →
      getRandomOpenRecipesE rng parseArr csv json count = .error e ∧
      (items ≠ [] → buildPantryTokenSet items ≠ [] →
        getBestPantryMatchesE parseArr csv json items limit = .error e) ∧
      (items.filter
          (fun item => item.risk_level = "use-now" || item.risk_level = "risky") ≠ [] →
        riskyTokensOf items ≠ [] →
        getUseNowRecipesE parseArr csv json items limit = .error e) ∧
      (normalizeToken query ≠ "" →
        searchOpenRecipesE fuseSearch parseArr csv json query limit = .error e)) ∧
    (csv = none → json = none → loadDataset parseArr csv json = .ok []) := by
  refine ⟨?_, ?_, ?_⟩
  · intro dataset hld
    exact ⟨getRandomE_eq rng parseArr csv json count hld,
      getBestE_eq parseArr csv json items limit hld,
      getUseNowE_eq parseArr csv json items limit hld,
      searchE_eq fuseSearch parseArr csv json query limit hld⟩
  · intro e herr
    refine ⟨?_, ?_, ?_, ?_⟩
    · unfold getRandomOpenRecipesE
      rw [herr]
      rfl
    · intro h1 h2
      unfold getBestPantryMatchesE
      rw [if_neg h1, if_neg h2, herr]
      rfl
    · intro h1 h2
      unfold getUseNowRecipesE
      rw [if_neg h1, if_neg h2, herr]
      rfl
    · intro h1
      unfold searchOpenRecipesE
      rw [if_neg h1, herr]
      rfl
  · intro hcsv hjson
    subst hcsv
    subst hjson
    rfl

theorem c2_witness :
    getRandomOpenRecipesE (fun _ => 0) (fun _ => JsParsed.arr []) none none 3 =
      Except.ok [] := by
  have h := (c2_theorem (fun _ => 0) (fun _ => JsParsed.arr []) (fun _ _ => [])
    none none [] "" 3 0).1 [] rfl
  exact h.1

theorem searchTokens_ne_nil (query : String) (h : normalizeToken query ≠ "") :
    (jsSplitSpace (normalizeToken query)).filter (· ≠ "") ≠ [] := by
  unfold jsSplitSpace
  cases hcl : (normalizeToken query).data with
  | nil =>
    exfalso
    apply h
    show (⟨trimWs (squash (query.data.map lowerChar))⟩ : String) = ""
    have hnil : trimWs (squash (query.data.map lowerChar)) = [] := hcl
    rw [hnil]
  | cons c cs =>
    have hhead : (trimWs (squash (query.data.map lowerChar))).head? = some c := by
      have hh : (normalizeToken query).data = c :: cs := hcl
      rw [show (normalizeToken query).data =
          trimWs (squash (query.data.map lowerChar)) from rfl] at hh
      rw [hh]
      rfl
    have hws : c.isWhitespace = false := head?_trimWs hhead
    have hcsp : ¬ (c = ' ') := fun hcq => by
      rw [hcq] at hws
      exact absurd hws (by decide)
    rw [show splitOnSpaceChar (c :: cs) =
        (match splitOnSpaceChar cs with
          | [] => [[c]]
          | t :: ts => (c :: t) :: ts) from by simp [splitOnSpaceChar, hcsp]]
    cases hsp : splitOnSpaceChar cs with
    | nil =>
      have hne : (⟨[c]⟩ : String) ≠ "" := fun heq => by
        have := congrArg String.data heq
        simp at this
      simp [List.filter_cons, hne]
    | cons t ts =>
      have hne : (⟨c :: t⟩ : String) ≠ "" := fun heq => by
        have := congrArg String.data heq
        simp at this
      simp [List.filter_cons, hne]

/-- Claim C4: the embedded search returns `[]` on an empty normalized
query; and whenever the fuzzy index yields zero results it returns the
(projected) top-`limit` of the manual fallback scorer — which keeps only
strictly positive scores — sorted descending by score. -/
theorem c4_theorem (fuseSearch : String → Nat → List EnrichedRecipe)
    (dataset : List EnrichedRecipe) (query : String) (limit : Nat) :
    (normalizeToken query = "" → searchOpenRecipes fuseSearch dataset query limit = []) ∧
    (normalizeToken query ≠ "" → fuseSearch (normalizeToken query) limit = [] →
      searchOpenRecipes fuseSearch dataset query limit =
        ((searchFallbackScored dataset
          ((jsSplitSpace (normalizeToken query)).filter (· ≠ ""))).take limit).map
          (fun entry => stripInternalFields entry.1)) ∧
    (searchFallbackScored dataset
      ((jsSplitSpace (normalizeToken query)).filter (· ≠ ""))).Pairwise simRel ∧
    (∀ entry ∈ searchFallbackScored dataset
        ((jsSplitSpace (normalizeToken query)).filter (· ≠ "")), 0 < entry.2) := by
  refine ⟨?_, ?_, ?_, ?_⟩
  · intro h
    simp [searchOpenRecipes, h]
  · intro h hf
    unfold searchOpenRecipes
    dsimp only
    rw [if_neg h]
    by_cases hds : dataset = []
    · rw [if_pos hds]
      simp [searchFallbackScored, hds]
    · rw [if_neg hds, hf]
      simp only [List.map_nil, ne_eq, not_true_eq_false, if_false]
      rw [if_neg (fun hc => searchTokens_ne_nil query h hc)]
  · exact List.sorted_insertionSort simRel _
  · intro entry hmem
    have hmem2 := (List.perm_insertionSort simRel _).mem_iff.mp hmem
    exact of_decide_eq_true (List.mem_filter.mp hmem2).2

theorem levDistance_qq_zzzz : levDistance "qq".data "zzzz".data = 4 := by decide

theorem tokenSimilarity_qq_zzzz : tokenSimilarity "qq" "zzzz" = 0 := by
  unfold tokenSimilarity
  rw [if_neg (by decide)]
  rw [levDistance_qq_zzzz]
  norm_num [String.length]

theorem scoreRecipeTokens_zz : scoreRecipeTokens zzRecipe ["qq"] = 0 := by
  have hbest : bestSim "qq" ["zzzz"] 0 = 0 := by
    unfold bestSim
    rw [tokenSimilarity_qq_zzzz]
    norm_num [bestSim]
  unfold scoreRecipeTokens
  rw [show zzRecipe.tokens = ["zzzz"] from rfl]
  rw [show (lowerStr zzRecipe.title).data = "zzzz".data from by decide]
  rw [show containsSub "zzzz".data (["qq"].headD "").data = false from by decide]
  simp only [List.foldl_cons, List.foldl_nil, hbest, Bool.false_eq_true, if_false]
  norm_num

/-- Claim C4 counterexample: on a dataset whose single record scores `0`
for the query `"qq"` (with the fuzzy index yielding nothing), the code
returns `[]` — the `score > 0` filter removes the record — while the
claimed "top `limit` records of the manual fallback scorer, sorted
descending" would return that record. -/
theorem c4_counterexample :
    searchOpenRecipes (fun _ _ => []) [zzRecipe] "qq" 1 = [] ∧
    specFallbackTop [zzRecipe] ["qq"] 1 = [stripInternalFields zzRecipe] := by
  constructor
  · unfold searchOpenRecipes
    dsimp only
    rw [if_neg (by decide : ¬ (normalizeToken "qq" = ""))]
    rw [if_neg (by decide : ¬ ([zzRecipe] = []))]
    simp only [List.map_nil, ne_eq, not_true_eq_false, if_false]
    rw [show (jsSplitSpace (normalizeToken "qq")).filter (· ≠ "") = ["qq"] from by decide]
    rw [if_neg (by decide : ¬ ((["qq"] : List String) = []))]
    have hfb : searchFallbackScored [zzRecipe] ["qq"] = [] := by
      unfold searchFallbackScored
      simp [scoreRecipeTokens_zz]
    rw [hfb]
    rfl
  · unfold specFallbackTop
    simp [List.insertionSort, List.orderedInsert]

theorem c4_witness :
    searchOpenRecipes (fun _ _ => [])
        [{ dfltRecipe with title := "Milk", tokens := ["milk"] }] "milk" 5 =
      ((searchFallbackScored [{ dfltRecipe with title := "Milk", tokens := ["milk"] }]
        ((jsSplitSpace (normalizeToken "milk")).filter (· ≠ ""))).take 5).map
        (fun entry => stripInternalFields entry.1) :=
  (c4_theorem (fun _ _ => [])
    [{ dfltRecipe with title := "Milk", tokens := ["milk"] }] "milk" 5).2.1 (by decide) rfl
